import Mathlib

/-!
Verification of the review-analyzer preprocessing and aggregation pipeline.

The definitions below are shallow embeddings of the Python source files
src/preprocessor.py and src/visualizations.py.  Python strings are modelled
as Lean strings (lists of characters), pandas data frames as lists of
labelled rows, floating point similarity scores as rationals, and calls to
the external language classifier as an oracle function passed in as a
parameter.  Fallible code is modelled with Except.
-/

/-! ## Python string primitives -/

/-- The set of characters matched by the regex class backslash-s and stripped
by the Python str.strip method (whitespace, modelled over the Unicode
whitespace code points Python recognises). -/
def isPySpace (c : Char) : Bool :=
  c = ' ' || c = '\t' || c = '\n' || c = '\r' || c = '\x0b' || c = '\x0c' ||
  c = '\x1c' || c = '\x1d' || c = '\x1e' || c = '\x1f' || c = '\x85' ||
  c = '\xa0' || c = ' ' ||
  (' ' ≤ c && c ≤ ' ') ||
  c = ' ' || c = ' ' || c = ' ' || c = ' ' || c = '　'

/-- Python str.strip on a character list: drop whitespace from both ends. -/
def pyStripL (l : List Char) : List Char :=
  ((l.dropWhile isPySpace).reverse.dropWhile isPySpace).reverse

/-- Python str.strip. -/
def pyStrip (s : String) : String := ⟨pyStripL s.data⟩

/-- Python str.lower on a character list (ASCII case folding, which is what
every string reaching the pipeline in the claims exercises). -/
def pyLowerL (l : List Char) : List Char := l.map Char.toLower

/-- Python str.lower. -/
def pyLower (s : String) : String := ⟨pyLowerL s.data⟩

/-! ## Language filter (src/preprocessor.py, is_english)

The langdetect classifier is an external collaborator; it is modelled by an
oracle `detect : String → Option String` where `none` models the classifier
raising an exception and `some tag` models a successful prediction. -/

/-- Embedding of is_english from src/preprocessor.py:
returns False when the text is empty or its stripped form has fewer than 3
characters; otherwise calls the classifier, treating an exception as English
(fail-open) and otherwise comparing the predicted tag with "en". -/
def is_english (detect : String → Option String) (text : String) : Bool :=
  if text = "" || (pyStrip text).length < 3 then
    false
  else
    match detect text with
    | none => true
    | some lang => lang == "en"

/-! ## Fuzzy similarity (rapidfuzz fuzz.ratio)

rapidfuzz fuzz.ratio is the normalized InDel similarity:
100 * (1 - indel_distance(a, b) / (len a + len b)), where indel distance is
the minimum number of insertions and deletions turning a into b.  The
functions below use explicit fuel (always called with enough fuel) so that
they are structurally recursive and kernel-evaluable. -/

/-- Length of a longest common subsequence (fuelled). -/
def lcsLenF : Nat → List Char → List Char → Nat
  | 0, _, _ => 0
  | _ + 1, [], _ => 0
  | _ + 1, _ :: _, [] => 0
  | f + 1, a :: as, b :: bs =>
    if a = b then lcsLenF f as bs + 1
    else max (lcsLenF f (a :: as) bs) (lcsLenF f as (b :: bs))

/-- Length of a longest common subsequence of two character lists. -/
def lcsLen (as bs : List Char) : Nat := lcsLenF (as.length + bs.length) as bs

/-- Edit distance with insertions and deletions only (fuelled). -/
def indelDistF : Nat → List Char → List Char → Nat
  | 0, _, _ => 0
  | _ + 1, [], bs => bs.length
  | _ + 1, a :: as, [] => (a :: as).length
  | f + 1, a :: as, b :: bs =>
    if a = b then indelDistF f as bs
    else 1 + min (indelDistF f (a :: as) bs) (indelDistF f as (b :: bs))

/-- Edit distance with insertions and deletions only. -/
def indelDist (as bs : List Char) : Nat := indelDistF (as.length + bs.length) as bs

/-- Levenshtein edit distance (insertions, deletions, substitutions),
fuelled. -/
def levenshteinF : Nat → List Char → List Char → Nat
  | 0, _, _ => 0
  | _ + 1, [], bs => bs.length
  | _ + 1, a :: as, [] => (a :: as).length
  | f + 1, a :: as, b :: bs =>
    if a = b then levenshteinF f as bs
    else 1 + min (levenshteinF f as bs)
      (min (levenshteinF f (a :: as) bs) (levenshteinF f as (b :: bs)))

/-- Levenshtein edit distance. -/
def levDist (as bs : List Char) : Nat :=
  levenshteinF (as.length + bs.length) as bs

/-- Embedding of rapidfuzz fuzz.ratio as an exact rational: the normalized
InDel similarity scaled to the range 0 to 100 (two empty strings score
100). -/
def fuzz_ratio (a b : String) : ℚ :=
  if a.data.length + b.data.length = 0 then 100
  else 200 * lcsLen a.data b.data / (a.data.length + b.data.length)

/-- The similarity formula stated by the spec, as a second definition built
from the words of the spec rather than from the source: a Levenshtein ratio
100 * (1 - edit_distance / max(len a, len b)) (two empty strings score
100). -/
def similaritySpec (a b : String) : ℚ :=
  if max a.data.length b.data.length = 0 then 100
  else 100 * (1 - levDist a.data b.data / max a.data.length b.data.length)

/-! ## Duplicate detection (src/preprocessor.py, find_duplicates) -/

/-- One outer iteration of find_duplicates: compare source index i against
each target index j of js in order, skipping already-marked targets and
appending j when the similarity decision simOK accepts the pair. -/
def innerLoop (simOK : Nat → Nat → Bool) (i : Nat) (js : List Nat)
    (acc : List Nat) : List Nat :=
  js.foldl (fun a j =>
    if j ∈ a then a else if simOK i j then a ++ [j] else a) acc

/-- The outer loop of find_duplicates over the remaining source indices,
skipping sources already marked for removal. -/
def outerLoop (simOK : Nat → Nat → Bool) (n : Nat) :
    List Nat → List Nat → List Nat
  | [], acc => acc
  | i :: rest, acc =>
    outerLoop simOK n rest
      (if i ∈ acc then acc
       else innerLoop simOK i (List.range' (i + 1) (n - (i + 1))) acc)

/-- The similarity decision used by find_duplicates: fuzz.ratio of the
case-folded texts at indices i and j is at least the threshold. -/
def dupDecision (texts : List String) (threshold : ℚ) (i j : Nat) : Bool :=
  threshold ≤ fuzz_ratio (pyLower (texts.getD i "")) (pyLower (texts.getD j ""))

/-- Embedding of find_duplicates from src/preprocessor.py: the greedy
pairwise pass over all ordered pairs, returning the sorted duplicate-free
list of marked indices. -/
def find_duplicates (texts : List String) (threshold : ℚ) : List Nat :=
  List.insertionSort (· ≤ ·)
    (outerLoop (dupDecision texts threshold) texts.length
      (List.range texts.length) [])

/-! ## Text normalizer (src/preprocessor.py, clean_text)

clean_text applies four regex substitutions in order (HTML-like tags, URLs,
email addresses, whitespace runs) and then strips the ends.  Each
substitution is embedded as a dedicated scanner with the exact leftmost,
greedy and backtracking semantics of the corresponding Python regex, driven
by a generic non-overlapping substitution loop.  All recursions carry fuel
(always called with enough) so that they stay structural and
kernel-evaluable. -/

/-- ASCII word characters, the regex class backslash-w on the inputs the
claims exercise. -/
def isWordChar (c : Char) : Bool := c.isAlpha || c.isDigit || c = '_'

/-- Wordness of the character left of the scan position (absent counts as
non-word), used for the regex word boundary. -/
def wordAt : Option Char → Bool
  | none => false
  | some c => isWordChar c

/-- Characters of the local part of the email regex. -/
def isLocalChar (c : Char) : Bool :=
  c.isAlpha || c.isDigit || c = '.' || c = '_' || c = '%' || c = '+' || c = '-'

/-- Characters of the domain part of the email regex. -/
def isDomainChar (c : Char) : Bool :=
  c.isAlpha || c.isDigit || c = '.' || c = '-'

/-- Characters of the final TLD part of the email regex, the class
A-Z, pipe, a-z written in the source. -/
def isTldChar (c : Char) : Bool := c.isAlpha || c = '|'

/-- Characters matched by the body of the URL regex: the union of its
alternatives (letters, digits, the dollar-to-underscore range, and the
exclamation mark; every other listed character already lies in that
range). -/
def urlChar (c : Char) : Bool :=
  c.isAlpha || c.isDigit || ('$' ≤ c && c ≤ '_') || c = '!'

/-- Generic non-overlapping leftmost substitution with empty replacement:
at each position, tryM receives the previous original character (for word
boundaries) and the remaining text, and reports the match length; matched
spans are dropped, unmatched characters are emitted. -/
def scanSubF (tryM : Option Char → List Char → Option Nat) :
    Nat → Option Char → List Char → List Char
  | 0, _, l => l
  | _ + 1, _, [] => []
  | f + 1, prev, c :: rest =>
    match tryM prev (c :: rest) with
    | some L =>
      if L = 0 then c :: scanSubF tryM f (some c) rest
      else scanSubF tryM f ((c :: rest).take L).getLast? ((c :: rest).drop L)
    | none => c :: scanSubF tryM f (some c) rest

/-- Run a substitution scanner over a whole character list. -/
def reSub (tryM : Option Char → List Char → Option Nat) (l : List Char) :
    List Char :=
  scanSubF tryM (l.length + 1) none l

/-- Matcher for the tag regex: an opening angle bracket, one or more
characters other than a closing angle bracket (greedy), then a closing
angle bracket. -/
def tagTry (_ : Option Char) (l : List Char) : Option Nat :=
  match l with
  | [] => none
  | c :: rest =>
    if c = '<' then
      (if (rest.takeWhile (fun x => x != '>')).length = 0 then none
       else
        (if (rest.drop (rest.takeWhile (fun x => x != '>')).length).length = 0
         then none
         else some ((rest.takeWhile (fun x => x != '>')).length + 2)))
    else none

/-- Matcher for the URL regex: the literal scheme (with optional s) followed
by a maximal nonempty run of URL body characters. -/
def urlTry (_ : Option Char) (l : List Char) : Option Nat :=
  if l.take 8 = ("https://").data then
    (if ((l.drop 8).takeWhile urlChar).length = 0 then none
     else some (8 + ((l.drop 8).takeWhile urlChar).length))
  else if l.take 7 = ("http://").data then
    (if ((l.drop 7).takeWhile urlChar).length = 0 then none
     else some (7 + ((l.drop 7).takeWhile urlChar).length))
  else none

/-- Acceptance test for a TLD candidate of length t in the email regex:
at least two characters, all in the TLD class, and a word boundary right
after it. -/
def tldOk (rest : List Char) (t : Nat) : Bool :=
  2 ≤ t && t ≤ (rest.takeWhile isTldChar).length &&
    (wordAt (rest.get? (t - 1)) != wordAt (rest.get? t))

/-- Greedy backtracking search for the TLD length, longest first. -/
def findTldLen (rest : List Char) : Nat → Option Nat
  | 0 => none
  | t + 1 => if tldOk rest (t + 1) then some (t + 1) else findTldLen rest t

/-- Greedy backtracking search for the end of an email match after the at
sign: the dot position is tried from the longest domain down, and for each
dot the TLD is tried longest first.  Returns the length matched after the
at sign. -/
def findEmailEnd (tail2 : List Char) : Nat → Option Nat
  | 0 => none
  | i + 1 =>
    if tail2.get? (i + 1) = some '.' then
      match findTldLen (tail2.drop (i + 2))
          ((tail2.drop (i + 2)).takeWhile isTldChar).length with
      | some t => some ((i + 1) + 1 + t)
      | none => findEmailEnd tail2 i
    else findEmailEnd tail2 i

/-- Matcher for the email regex: a word boundary, a maximal nonempty run of
local characters, an at sign, then domain, dot and TLD found by the greedy
backtracking search. -/
def emailTry (prev : Option Char) (l : List Char) : Option Nat :=
  if wordAt prev = wordAt l.head? then none
  else
    if (l.takeWhile isLocalChar).length = 0 then none
    else
      if (l.drop (l.takeWhile isLocalChar).length).head? = some '@' then
        match findEmailEnd (l.drop (l.takeWhile isLocalChar).length).tail
            (((l.drop (l.takeWhile isLocalChar).length).tail.takeWhile
              isDomainChar).length - 1) with
        | some endIdx => some ((l.takeWhile isLocalChar).length + 1 + endIdx)
        | none => none
      else none

/-- The whitespace-collapsing substitution: each maximal nonempty run of
whitespace becomes a single space (fuelled). -/
def collapseF : Nat → List Char → List Char
  | 0, l => l
  | _ + 1, [] => []
  | f + 1, c :: rest =>
    if isPySpace c then ' ' :: collapseF f (rest.dropWhile isPySpace)
    else c :: collapseF f rest

/-- Collapse whitespace runs to single spaces. -/
def collapseWs (l : List Char) : List Char := collapseF (l.length + 1) l

/-- clean_text on character lists: remove tags, then URLs, then emails,
collapse whitespace, strip the ends. -/
def cleanTextL (l : List Char) : List Char :=
  pyStripL (collapseWs (reSub emailTry (reSub urlTry (reSub tagTry l))))

/-- Embedding of clean_text from src/preprocessor.py (on string inputs; the
non-string defensive branch of the source is outside the string-typed
model). -/
def clean_text (s : String) : String := ⟨cleanTextL s.data⟩

/-! ## Pipeline orchestrator (src/preprocessor.py, preprocess_reviews) -/

/-- An input data-frame row: a pandas label is carried separately; the
payload stands for all columns other than review_text. -/
structure RawRow (α : Type) where
  payload : α
  review_text : String

/-- A processed row, with the derived cleaned_text column added. -/
structure Row (α : Type) where
  payload : α
  review_text : String
  cleaned_text : String

/-- Adding the cleaned_text column to a row. -/
def enrichRow {α : Type} (r : RawRow α) : Row α :=
  ⟨r.payload, r.review_text, clean_text r.review_text⟩

/-- pandas drop of the labels found at the given positions (drop removes
every row carrying one of those labels). -/
def dropByPositions {α : Type} (rows : List (Nat × Row α))
    (positions : List Nat) : List (Nat × Row α) :=
  rows.filter (fun p =>
    decide (p.1 ∉ positions.filterMap (fun i => (rows.get? i).map Prod.fst)))

/-- Reset a data frame to a dense 0-based index. -/
def resetIndex {α : Type} (rows : List (Nat × Row α)) : List (Nat × Row α) :=
  rows.enum.map (fun q => (q.1, q.2.2))

/-- Embedding of preprocess_reviews from src/preprocessor.py: clean the
text, drop rows whose cleaned text is empty, optionally filter to English
rows, optionally drop fuzzy duplicates, and re-index densely.  The language
classifier oracle is a parameter. -/
def preprocess_reviews {α : Type} (detect : String → Option String)
    (df : List (Nat × RawRow α)) (remove_duplicates filter_english : Bool)
    (dedup_threshold : ℚ) : List (Nat × Row α) :=
  if df.isEmpty then []
  else
    let step1 := df.map (fun p => (p.1, enrichRow p.2))
    let step2 := step1.filter (fun p => decide (0 < p.2.cleaned_text.length))
    if step2.isEmpty then []
    else
      let step3 := if filter_english
        then step2.filter (fun p => is_english detect p.2.cleaned_text)
        else step2
      if step3.isEmpty then []
      else
        let step4 := if remove_duplicates then
            (if (find_duplicates (step3.map (fun p => p.2.cleaned_text))
                  dedup_threshold).isEmpty then step3
             else resetIndex (dropByPositions step3
               (find_duplicates (step3.map (fun p => p.2.cleaned_text))
                 dedup_threshold)))
          else step3
        resetIndex step4

/-! ## Aspect aggregation (src/visualizations.py, aggregate_aspects)

Aspect mentions come from an external extractor and may be malformed: the
aspects cell may fail to be a list, an entry may fail to be a dict, and the
name, sentiment and quote keys may each be absent (string-valued fields are
modelled as optional strings).  The per-name statistics dict of the source
holds the keys count and quotes alongside one dynamically created bucket per
(lowercased) sentiment string; it is modelled by a structure whose bucket
list is an insertion-ordered association list, and writing a sentiment named
quotes is a Python TypeError, modelled with Except. -/

/-- One aspect mention as the extractor may deliver it. -/
structure AspectDict where
  name? : Option String
  sentiment? : Option String
  quote? : Option String
deriving DecidableEq

/-- One element of an aspects list: a dict or something else. -/
inductive AspectEntry
  | dict (d : AspectDict)
  | nonDict
deriving DecidableEq

/-- The aspects cell of a row: a list of entries or something else. -/
inductive AspectsField
  | list (entries : List AspectEntry)
  | nonList
deriving DecidableEq

/-- The per-name statistics dict: the count key, the sentiment buckets
(insertion ordered, seeded with the three canonical labels), and the
collected quote pool. -/
structure AspectStats where
  count : Nat
  buckets : List (String × Nat)
  quotes : List (String × String)
deriving DecidableEq

/-- The dict defaultdict seeds for a fresh aspect name. -/
def initStats : AspectStats :=
  ⟨0, [("positive", 0), ("negative", 0), ("neutral", 0)], []⟩

/-- Lookup with default 0 in the sentiment buckets (dict get). -/
def bucketGet : List (String × Nat) → String → Nat
  | [], _ => 0
  | p :: rest, k => if p.1 = k then p.2 else bucketGet rest k

/-- Python dict write d[k] = d.get(k, 0) + 1 on the buckets: update in
place when the key exists, append a fresh key at the end otherwise. -/
def bucketBump : List (String × Nat) → String → List (String × Nat)
  | [], k => [(k, 1)]
  | p :: rest, k =>
    if p.1 = k then (p.1, p.2 + 1) :: rest else p :: bucketBump rest k

/-- One mention hitting the statistics of its aspect name: the count key is
incremented; then the (lowercased) sentiment key is written.  Writing the
key count increments the count a second time; writing the key quotes adds
an integer to a list, a Python TypeError; any other sentiment bumps its
bucket.  Finally a nonempty quote is appended to the pool. -/
def statsUpdate (st : AspectStats) (sentiment quote : String) :
    Except String AspectStats :=
  let st1 : AspectStats := { st with count := st.count + 1 }
  if sentiment = "count" then
    let st2 : AspectStats := { st1 with count := st1.count + 1 }
    .ok (if quote = "" then st2
      else { st2 with quotes := st2.quotes ++ [(quote, sentiment)] })
  else if sentiment = "quotes" then
    .error "TypeError"
  else
    let st2 : AspectStats := { st1 with buckets := bucketBump st1.buckets sentiment }
    .ok (if quote = "" then st2
      else { st2 with quotes := st2.quotes ++ [(quote, sentiment)] })

/-- Lookup in the outer insertion-ordered aspect map. -/
def statsFind : List (String × AspectStats) → String → Option AspectStats
  | [], _ => none
  | p :: rest, k => if p.1 = k then some p.2 else statsFind rest k

/-- Write back into the outer aspect map, appending new names at the end. -/
def statsInsert : List (String × AspectStats) → String → AspectStats →
    List (String × AspectStats)
  | [], k, st => [(k, st)]
  | p :: rest, k, st =>
    if p.1 = k then (p.1, st) :: rest else p :: statsInsert rest k st

/-- Process one entry of an aspects list: non-dicts are skipped, an empty
normalized name is skipped, otherwise the statistics of that name are
updated. -/
def processAspect (m : List (String × AspectStats)) (e : AspectEntry) :
    Except String (List (String × AspectStats)) :=
  match e with
  | .nonDict => .ok m
  | .dict d =>
    if pyStrip (pyLower (d.name?.getD "")) = "" then .ok m
    else
      match statsUpdate ((statsFind m (pyStrip (pyLower (d.name?.getD "")))).getD initStats)
          (pyLower (d.sentiment?.getD "")) (d.quote?.getD "") with
      | .ok st => .ok (statsInsert m (pyStrip (pyLower (d.name?.getD ""))) st)
      | .error msg => .error msg

/-- Process the aspects cell of one row: a non-list cell is skipped. -/
def processRow (m : List (String × AspectStats)) (af : AspectsField) :
    Except String (List (String × AspectStats)) :=
  match af with
  | .nonList => .ok m
  | .list es => es.foldlM processAspect m

/-- One output row of the aggregation. -/
structure AspectSummary where
  name : String
  count : Nat
  positive_count : Nat
  negative_count : Nat
  neutral_count : Nat
  positive_ratio : ℚ
deriving DecidableEq

/-- Turn the final statistics of one aspect name into its summary row. -/
def buildSummary (p : String × AspectStats) : AspectSummary :=
  ⟨p.1, p.2.count,
    bucketGet p.2.buckets "positive",
    bucketGet p.2.buckets "negative",
    bucketGet p.2.buckets "neutral",
    if 0 < p.2.count
      then (bucketGet p.2.buckets "positive" : ℚ) / (p.2.count : ℚ)
      else 0⟩

/-- Embedding of aggregate_aspects from src/visualizations.py: fold every
mention of every row into the per-name statistics, then emit one summary
row per name, sorted by descending count (ties in source order). -/
def aggregate_aspects (df : List AspectsField) :
    Except String (List AspectSummary) :=
  match df.foldlM processRow ([] : List (String × AspectStats)) with
  | .error msg => .error msg
  | .ok m =>
    .ok (List.insertionSort (fun a b => b.count ≤ a.count) (m.map buildSummary))

/-! ## Quote ranking (src/visualizations.py, get_top_quotes_for_aspect) -/

/-- A row as the ranker sees it: the aspects cell and the optional
sentiment-confidence column (absent models a missing value, defaulted to
one half). -/
structure RankRow where
  aspects : AspectsField
  sentiment_confidence : Option ℚ

/-- A collected quote with its sentiment and the confidence of its row. -/
structure Quote where
  quote : String
  sentiment : String
  confidence : ℚ
deriving DecidableEq

/-- Collect every nonempty quote of every mention whose normalized name
matches the normalized requested aspect name, in row order; a missing
sentiment defaults to the string neutral (not lowercased here), and the
confidence defaults to one half. -/
def collectQuotes (df : List RankRow) (aspect_name : String) : List Quote :=
  df.foldl (fun acc row =>
    match row.aspects with
    | .nonList => acc
    | .list es => acc ++ es.filterMap (fun e =>
        match e with
        | .nonDict => none
        | .dict d =>
          if pyStrip (pyLower (d.name?.getD "")) =
              pyStrip (pyLower aspect_name) then
            (if d.quote?.getD "" = "" then none
             else some ⟨d.quote?.getD "", d.sentiment?.getD "neutral",
               row.sentiment_confidence.getD (1 / 2)⟩)
          else none)) []

/-- Descending order on confidence (the sort key of the source). -/
def confGE (a b : Quote) : Prop := b.confidence ≤ a.confidence

instance : DecidableRel confGE :=
  fun a b => inferInstanceAs (Decidable (b.confidence ≤ a.confidence))

instance : IsTotal Quote confGE :=
  ⟨fun a b => le_total b.confidence a.confidence⟩

instance : IsTrans Quote confGE :=
  ⟨fun _ _ _ hab hbc => le_trans hbc hab⟩

/-- The stable descending sort by confidence (Python list.sort is stable;
insertion sort keeps earlier-collected quotes ahead on ties). -/
def sortQuotes (qs : List Quote) : List Quote := List.insertionSort confGE qs

/-- Membership test of the positive-or-negative partition. -/
def isPosNeg (q : Quote) : Bool :=
  q.sentiment = "positive" || q.sentiment = "negative"

/-- Membership test of the neutral partition. -/
def isNeutralQ (q : Quote) : Bool := q.sentiment = "neutral"

/-- Embedding of get_top_quotes_for_aspect from src/visualizations.py:
collect, sort by confidence descending, then take up to top_n from the
positive-or-negative partition and backfill from the neutral partition. -/
def get_top_quotes_for_aspect (df : List RankRow) (aspect_name : String)
    (top_n : Nat) : List Quote :=
  let quotes := sortQuotes (collectQuotes df aspect_name)
  let positive_negative := quotes.filter isPosNeg
  let neutral := quotes.filter isNeutralQ
  let result := positive_negative.take top_n
  let result2 := if result.length < top_n
    then result ++ neutral.take (top_n - result.length)
    else result
  result2.take top_n

/-! ## Invariant predicates of the aggregation and the adjacency relation
of collapsed text -/

/-- The per-row statistics invariant: the count key equals the sum of the
three canonical buckets. -/
def statOK (st : AspectStats) : Prop :=
  st.count = bucketGet st.buckets "positive" + bucketGet st.buckets "negative"
    + bucketGet st.buckets "neutral"

/-- The map invariant: every recorded aspect satisfies the invariant. -/
def mapOK (m : List (String × AspectStats)) : Prop := ∀ p ∈ m, statOK p.2

/-- The entries of an aspects cell (none for a non-list cell). -/
def entriesOf : AspectsField → List AspectEntry
  | .list es => es
  | .nonList => []

/-- Decidable test: the entry is not a dict, or its lowercased sentiment is
one of the three canonical labels. -/
def canonicalSentiment (e : AspectEntry) : Bool :=
  match e with
  | .nonDict => true
  | .dict d =>
    pyLower (d.sentiment?.getD "") = "positive" ||
    pyLower (d.sentiment?.getD "") = "negative" ||
    pyLower (d.sentiment?.getD "") = "neutral"

/-- Decidable test: the entry is not a dict, or its lowercased sentiment is
not the string quotes. -/
def notQuotesSentiment (e : AspectEntry) : Bool :=
  match e with
  | .nonDict => true
  | .dict d => !(pyLower (d.sentiment?.getD "") == "quotes")

/-- The adjacency relation of collapsed text: no two neighbouring
whitespace characters. -/
def noTwoSpaces (a b : Char) : Prop := isPySpace a = false ∨ isPySpace b = false

/-! ## Theorems for claim C8 -/

/-- C8: for every string text, is_english returns false whenever the trimmed
text has fewer than 3 characters; otherwise, if the language classifier
errors it returns true (fail-open), and if the classifier succeeds it
returns true iff the predicted language tag is "en". -/
theorem is_english_spec (detect : String → Option String) (text : String) :
    ((pyStrip text).length < 3 → is_english detect text = false) ∧
    (3 ≤ (pyStrip text).length → detect text = none →
      is_english detect text = true) ∧
    (3 ≤ (pyStrip text).length → ∀ lang, detect text = some lang →
      (is_english detect text = true ↔ lang = "en")) := by
  refine ⟨?_, ?_, ?_⟩
  · intro hshort
    unfold is_english
    rcases eq_or_ne text "" with h | h
    · simp [h]
    · simp [h, hshort]
  · intro hlen hdet
    have hne : text ≠ "" := by
      intro h
      subst h
      simp [pyStrip, pyStripL] at hlen
    unfold is_english
    simp [hne, Nat.not_lt.mpr hlen, hdet]
  · intro hlen lang hdet
    have hne : text ≠ "" := by
      intro h
      subst h
      simp [pyStrip, pyStripL] at hlen
    unfold is_english
    simp [hne, Nat.not_lt.mpr hlen, hdet]

/-- Witness for C8 at a concrete input: the classifier succeeds on "hello"
with tag "en", the trimmed length is at least 3, and the theorem yields that
the text is accepted as English. -/
theorem is_english_spec_witness :
    3 ≤ (pyStrip ("hello")).length ∧
    is_english (fun _ => some ("en")) ("hello") = true := by
  refine ⟨by decide, ?_⟩
  have h := (is_english_spec (fun _ => some ("en")) ("hello")).2.2
    (by decide) ("en") rfl
  exact h.mpr rfl

/-! ## Theorems for claim C2 -/

/-- The InDel distance and the LCS length determine each other:
indel + 2 * lcs = total length.  Proved for every sufficient fuel. -/
theorem indelDistF_add_two_lcsLenF :
    ∀ (f : Nat) (as bs : List Char), as.length + bs.length ≤ f →
      indelDistF f as bs + 2 * lcsLenF f as bs = as.length + bs.length := by
  intro f
  induction f with
  | zero =>
    intro as bs h
    have has : as = [] := by
      cases as with
      | nil => rfl
      | cons a as => simp at h
    have hbs : bs = [] := by
      cases bs with
      | nil => rfl
      | cons b bs => simp at h
    subst has; subst hbs
    simp [indelDistF, lcsLenF]
  | succ f ih =>
    intro as bs h
    cases as with
    | nil => simp [indelDistF, lcsLenF]
    | cons a as =>
      cases bs with
      | nil => simp [indelDistF, lcsLenF]
      | cons b bs =>
        by_cases hab : a = b
        · have h1 : as.length + bs.length ≤ f := by
            simp at h; omega
          have := ih as bs h1
          simp [indelDistF, lcsLenF, hab]
          omega
        · have h1 : (a :: as).length + bs.length ≤ f := by
            simp at h ⊢; omega
          have h2 : as.length + (b :: bs).length ≤ f := by
            simp at h ⊢; omega
          have e1 := ih (a :: as) bs h1
          have e2 := ih as (b :: bs) h2
          simp [indelDistF, lcsLenF, hab]
          simp at e1 e2
          omega

/-- Same identity for the unfuelled functions. -/
theorem indelDist_add_two_lcsLen (as bs : List Char) :
    indelDist as bs + 2 * lcsLen as bs = as.length + bs.length :=
  indelDistF_add_two_lcsLenF (as.length + bs.length) as bs le_rfl

/-- C2 (amended): the similarity score used by find_duplicates is the
normalized InDel ratio 100 * (1 - indel_distance(a, b) / (len a + len b))
(insertions and deletions only, not the max-normalized Levenshtein ratio of
the claim), and for a two-element list the pair is marked as a duplicate
exactly when the score of the case-folded texts reaches the threshold. -/
theorem fuzz_ratio_indel_spec :
    (∀ a b : String, a.data.length + b.data.length ≠ 0 →
      fuzz_ratio a b =
        100 * (1 - (indelDist a.data b.data : ℚ) /
          ((a.data.length : ℚ) + (b.data.length : ℚ)))) ∧
    (∀ (a b : String) (thr : ℚ),
      find_duplicates [a, b] thr =
        if thr ≤ fuzz_ratio (pyLower a) (pyLower b) then [1] else []) := by
  constructor
  · intro a b hsum
    have hk := indelDist_add_two_lcsLen a.data b.data
    have hden : ((a.data.length : ℚ) + (b.data.length : ℚ)) ≠ 0 := by
      have : (0 : ℚ) < (a.data.length : ℚ) + (b.data.length : ℚ) := by
        have : 0 < a.data.length + b.data.length := Nat.pos_of_ne_zero hsum
        exact_mod_cast this
      linarith
    have hkq : (indelDist a.data b.data : ℚ) + 2 * (lcsLen a.data b.data : ℚ) =
        (a.data.length : ℚ) + (b.data.length : ℚ) := by
      exact_mod_cast hk
    have ca : ((a.data.length : Nat) : ℚ) = ((a.length : Nat) : ℚ) := rfl
    have cb : ((b.data.length : Nat) : ℚ) = ((b.length : Nat) : ℚ) := rfl
    rw [ca, cb] at hkq hden
    unfold fuzz_ratio
    rw [if_neg hsum]
    field_simp
    linarith
  · intro a b thr
    unfold find_duplicates
    have hrange : List.range 2 = [0, 1] := by decide
    by_cases h : dupDecision [a, b] thr 0 1
    · have hd : dupDecision [a, b] thr 0 1 = true := h
      have hgoal : thr ≤ fuzz_ratio (pyLower a) (pyLower b) := by
        have := of_decide_eq_true hd
        simpa [dupDecision] using this
      simp only [List.length_cons, List.length_nil, hrange]
      rw [if_pos hgoal]
      simp [outerLoop, innerLoop, List.range', hd, List.insertionSort,
        List.orderedInsert]
    · have hd : dupDecision [a, b] thr 0 1 = false := by
        simpa using h
      have hgoal : ¬ thr ≤ fuzz_ratio (pyLower a) (pyLower b) := by
        intro hle
        apply h
        simpa [dupDecision] using hle
      simp only [List.length_cons, List.length_nil, hrange]
      rw [if_neg hgoal]
      simp [outerLoop, innerLoop, List.range', hd, List.insertionSort]

/-- Witness for the amended C2 at concrete inputs "abc" and "acb" with
threshold 50: the length hypothesis holds, the score is the InDel formula,
and the pair is marked. -/
theorem fuzz_ratio_indel_spec_witness :
    ("abc").data.length + ("acb").data.length ≠ 0 ∧
    fuzz_ratio ("abc") ("acb") =
      100 * (1 - (indelDist ("abc").data ("acb").data : ℚ) /
        ((("abc").data.length : ℚ) + (("acb").data.length : ℚ))) ∧
    find_duplicates [("abc"), ("acb")] 50 = [1] := by
  refine ⟨by decide, fuzz_ratio_indel_spec.1 ("abc") ("acb") (by decide), ?_⟩
  rw [fuzz_ratio_indel_spec.2 ("abc") ("acb") 50]
  have hl : lcsLen (pyLower ("abc")).data (pyLower ("acb")).data = 2 := by
    decide
  have hn1 : (pyLower ("abc")).data.length = 3 := by decide
  have hn2 : (pyLower ("acb")).data.length = 3 := by decide
  have hval : fuzz_ratio (pyLower ("abc")) (pyLower ("acb")) = 200 / 3 := by
    unfold fuzz_ratio
    rw [hl, hn1, hn2]
    norm_num
  rw [hval, if_pos (by norm_num : (50 : ℚ) ≤ 200 / 3)]

/-- C2 counterexample: on the texts "abc" and "acb" the score actually used
(the InDel ratio of rapidfuzz, 200/3) differs from the max-normalized
Levenshtein formula of the claim (100/3), and at threshold 50 the code marks
the pair as duplicates while the formula of the claim would not. -/
theorem fuzz_ratio_ne_similaritySpec :
    fuzz_ratio ("abc") ("acb") ≠ similaritySpec ("abc") ("acb") ∧
    find_duplicates [("abc"), ("acb")] 50 = [1] ∧
    similaritySpec ("abc") ("acb") < 50 := by
  have hn1 : ("abc").data.length = 3 := by decide
  have hn2 : ("acb").data.length = 3 := by decide
  have hfz : fuzz_ratio ("abc") ("acb") = 200 / 3 := by
    have hl : lcsLen ("abc").data ("acb").data = 2 := by decide
    unfold fuzz_ratio
    rw [hl, hn1, hn2]
    norm_num
  have hsp : similaritySpec ("abc") ("acb") = 100 / 3 := by
    have hv : levDist ("abc").data ("acb").data = 2 := by decide
    unfold similaritySpec
    rw [hv, hn1, hn2]
    norm_num
  have hfzl : fuzz_ratio (pyLower ("abc")) (pyLower ("acb")) = 200 / 3 := by
    have hl : lcsLen (pyLower ("abc")).data (pyLower ("acb")).data = 2 := by
      decide
    have hm1 : (pyLower ("abc")).data.length = 3 := by decide
    have hm2 : (pyLower ("acb")).data.length = 3 := by decide
    unfold fuzz_ratio
    rw [hl, hm1, hm2]
    norm_num
  have hd : dupDecision [("abc"), ("acb")] 50 0 1 = true := by
    unfold dupDecision
    rw [decide_eq_true_eq]
    have hg0 : ([("abc"), ("acb")] : List String).getD 0 "" = "abc" := rfl
    have hg1 : ([("abc"), ("acb")] : List String).getD 1 "" = "acb" := rfl
    rw [hg0, hg1, hfzl]
    norm_num
  refine ⟨by rw [hfz, hsp]; norm_num, ?_, by rw [hsp]; norm_num⟩
  unfold find_duplicates
  have hrange : List.range ([("abc"), ("acb")] : List String).length = [0, 1] := by
    decide
  rw [hrange]
  simp [outerLoop, innerLoop, List.range', hd, List.insertionSort,
    List.orderedInsert]

/-! ## Theorems for claim C1 -/

/-- The inner loop only appends: it returns the accumulator followed by new
indices, each drawn from the candidate list and accepted by the similarity
decision. -/
theorem innerLoop_eq_append (simOK : Nat → Nat → Bool) (i : Nat) :
    ∀ (js : List Nat) (acc : List Nat), ∃ ext,
      innerLoop simOK i js acc = acc ++ ext ∧
      ∀ x ∈ ext, x ∈ js ∧ simOK i x = true := by
  intro js
  induction js with
  | nil =>
    intro acc
    exact ⟨[], by simp [innerLoop], by simp⟩
  | cons j js ih =>
    intro acc
    have hstep : innerLoop simOK i (j :: js) acc
        = innerLoop simOK i js
          (if j ∈ acc then acc else if simOK i j then acc ++ [j] else acc) := by
      simp only [innerLoop, List.foldl_cons]
    by_cases hj : j ∈ acc
    · rcases ih acc with ⟨ext, he, hp⟩
      refine ⟨ext, ?_, ?_⟩
      · rw [hstep, if_pos hj]
        exact he
      · intro x hx
        exact ⟨List.mem_cons_of_mem _ (hp x hx).1, (hp x hx).2⟩
    · by_cases hs : simOK i j = true
      · rcases ih (acc ++ [j]) with ⟨ext, he, hp⟩
        refine ⟨j :: ext, ?_, ?_⟩
        · rw [hstep, if_neg hj, if_pos hs, he]
          simp
        · intro x hx
          rcases List.mem_cons.mp hx with rfl | hx'
          · exact ⟨List.mem_cons_self _ _, hs⟩
          · exact ⟨List.mem_cons_of_mem _ (hp x hx').1, (hp x hx').2⟩
      · rcases ih acc with ⟨ext, he, hp⟩
        refine ⟨ext, ?_, ?_⟩
        · rw [hstep, if_neg hj, if_neg hs]
          exact he
        · intro x hx
          exact ⟨List.mem_cons_of_mem _ (hp x hx).1, (hp x hx).2⟩

/-- The inner loop preserves freedom from duplicates: an index is appended
only after the membership test excludes it. -/
theorem innerLoop_nodup (simOK : Nat → Nat → Bool) (i : Nat) :
    ∀ (js : List Nat) (acc : List Nat), acc.Nodup →
      (innerLoop simOK i js acc).Nodup := by
  intro js
  induction js with
  | nil =>
    intro acc hacc
    simpa [innerLoop] using hacc
  | cons j js ih =>
    intro acc hacc
    have hstep : innerLoop simOK i (j :: js) acc
        = innerLoop simOK i js
          (if j ∈ acc then acc else if simOK i j then acc ++ [j] else acc) := by
      simp only [innerLoop, List.foldl_cons]
    rw [hstep]
    by_cases hj : j ∈ acc
    · rw [if_pos hj]
      exact ih acc hacc
    · rw [if_neg hj]
      by_cases hs : simOK i j = true
      · rw [if_pos hs]
        refine ih (acc ++ [j]) ?_
        refine List.nodup_append.mpr ⟨hacc, List.nodup_singleton j, ?_⟩
        intro x hx hx'
        simp only [List.mem_singleton] at hx'
        subst hx'
        exact hj hx
      · rw [if_neg hs]
        exact ih acc hacc

/-- Invariant of the outer loop of find_duplicates: when the pending source
indices are strictly increasing and at least m, and every already marked
index is positive and owes its marking to a smaller unmarked index below m,
then the final accumulator is duplicate-free, all its members are positive,
and every member was marked against a smaller index that survives. -/
theorem outerLoop_inv (simOK : Nat → Nat → Bool) (n : Nat) :
    ∀ (todo : List Nat) (m : Nat) (acc : List Nat),
      todo.Pairwise (· < ·) →
      (∀ i ∈ todo, m ≤ i) →
      acc.Nodup →
      (∀ j ∈ acc, 1 ≤ j) →
      (∀ j ∈ acc, ∃ i0, i0 < j ∧ i0 < m ∧ i0 ∉ acc ∧ simOK i0 j = true) →
      (outerLoop simOK n todo acc).Nodup ∧
      (∀ j ∈ outerLoop simOK n todo acc, 1 ≤ j) ∧
      (∀ j ∈ outerLoop simOK n todo acc, ∃ i0, i0 < j ∧
        i0 ∉ outerLoop simOK n todo acc ∧ simOK i0 j = true) := by
  intro todo
  induction todo with
  | nil =>
    intro m acc _ _ hnd h1 hw
    simp only [outerLoop]
    refine ⟨hnd, h1, ?_⟩
    intro j hj
    rcases hw j hj with ⟨i0, hlt, _, hnotin, hsim⟩
    exact ⟨i0, hlt, hnotin, hsim⟩
  | cons i rest ih =>
    intro m acc hpw htodo hnd h1 hw
    have hpw' : rest.Pairwise (· < ·) := (List.pairwise_cons.mp hpw).2
    have hgt : ∀ x ∈ rest, i < x := (List.pairwise_cons.mp hpw).1
    have hmi : m ≤ i := htodo i (List.mem_cons_self _ _)
    simp only [outerLoop]
    by_cases hi : i ∈ acc
    · rw [if_pos hi]
      refine ih (i + 1) acc hpw' (fun x hx => hgt x hx) hnd h1 ?_
      intro j hj
      rcases hw j hj with ⟨i0, hlt, hltm, hnotin, hsim⟩
      exact ⟨i0, hlt, by omega, hnotin, hsim⟩
    · rw [if_neg hi]
      rcases innerLoop_eq_append simOK i (List.range' (i + 1) (n - (i + 1))) acc
        with ⟨ext, he, hp⟩
      have hext_gt : ∀ x ∈ ext, i + 1 ≤ x := by
        intro x hx
        exact (List.mem_range'_1.mp (hp x hx).1).1
      have hnd' : (acc ++ ext).Nodup := by
        have := innerLoop_nodup simOK i (List.range' (i + 1) (n - (i + 1))) acc hnd
        rwa [he] at this
      rw [he]
      refine ih (i + 1) (acc ++ ext) hpw' (fun x hx => hgt x hx) hnd' ?_ ?_
      · intro j hj
        rcases List.mem_append.mp hj with hj | hj
        · exact h1 j hj
        · have := hext_gt j hj
          omega
      · intro j hj
        rcases List.mem_append.mp hj with hj | hj
        · rcases hw j hj with ⟨i0, hlt, hltm, hnotin, hsim⟩
          refine ⟨i0, hlt, by omega, ?_, hsim⟩
          intro hmem
          rcases List.mem_append.mp hmem with h | h
          · exact hnotin h
          · have := hext_gt i0 h
            omega
        · refine ⟨i, ?_, by omega, ?_, (hp j hj).2⟩
          · have := hext_gt j hj
            omega
          · intro hmem
            rcases List.mem_append.mp hmem with h | h
            · exact hi h
            · have := hext_gt i h
              omega

/-- C1: for every list of texts and every threshold, find_duplicates
returns a strictly sorted (hence duplicate-free) list that never contains
index 0, and every returned index j was marked through a comparison with a
smaller index i that is itself not marked for removal, so the first
occurrence of each similarity cluster is kept. -/
theorem find_duplicates_first_occurrence_wins (texts : List String)
    (threshold : ℚ) :
    (find_duplicates texts threshold).Sorted (· < ·) ∧
    (find_duplicates texts threshold).Nodup ∧
    0 ∉ find_duplicates texts threshold ∧
    ∀ j ∈ find_duplicates texts threshold, ∃ i, i < j ∧
      i ∉ find_duplicates texts threshold ∧
      dupDecision texts threshold i j = true := by
  have hinv := outerLoop_inv (dupDecision texts threshold) texts.length
    (List.range texts.length) 0 []
    (List.pairwise_lt_range texts.length)
    (fun i _ => Nat.zero_le i)
    List.nodup_nil
    (by simp)
    (by simp)
  set L := outerLoop (dupDecision texts threshold) texts.length
    (List.range texts.length) [] with hLdef
  have hperm : List.Perm (find_duplicates texts threshold) L :=
    List.perm_insertionSort (· ≤ ·) L
  have hnd : (find_duplicates texts threshold).Nodup :=
    hperm.nodup_iff.mpr hinv.1
  have hsle : (find_duplicates texts threshold).Sorted (· ≤ ·) :=
    List.sorted_insertionSort (· ≤ ·) L
  refine ⟨hsle.lt_of_le hnd, hnd, ?_, ?_⟩
  · intro h0
    have := hinv.2.1 0 (hperm.mem_iff.mp h0)
    omega
  · intro j hj
    rcases hinv.2.2 j (hperm.mem_iff.mp hj) with ⟨i0, hlt, hnotin, hsim⟩
    refine ⟨i0, hlt, ?_, hsim⟩
    intro hmem
    exact hnotin (hperm.mem_iff.mp hmem)

/-- Witness for C1 at a concrete input: on texts ["aa", "aa"] with
threshold 100 the second text is marked, and the theorem produces a smaller
surviving source index for it. -/
theorem find_duplicates_first_occurrence_wins_witness :
    1 ∈ find_duplicates [("aa"), ("aa")] 100 ∧
    ∃ i, i < 1 ∧ i ∉ find_duplicates [("aa"), ("aa")] 100 ∧
      dupDecision [("aa"), ("aa")] 100 i 1 = true := by
  have hd : dupDecision [("aa"), ("aa")] 100 0 1 = true := by
    unfold dupDecision
    rw [decide_eq_true_eq]
    have hg0 : ([("aa"), ("aa")] : List String).getD 0 "" = "aa" := rfl
    have hg1 : ([("aa"), ("aa")] : List String).getD 1 "" = "aa" := rfl
    have hl : lcsLen (pyLower ("aa")).data (pyLower ("aa")).data = 2 := by
      decide
    have hm : (pyLower ("aa")).data.length = 2 := by decide
    rw [hg0, hg1]
    unfold fuzz_ratio
    rw [hl, hm]
    norm_num
  have hmem : 1 ∈ find_duplicates [("aa"), ("aa")] 100 := by
    unfold find_duplicates
    have hrange : List.range ([("aa"), ("aa")] : List String).length = [0, 1] := by
      decide
    rw [hrange]
    simp [outerLoop, innerLoop, List.range', hd, List.insertionSort,
      List.orderedInsert]
  exact ⟨hmem,
    (find_duplicates_first_occurrence_wins [("aa"), ("aa")] 100).2.2.2 1 hmem⟩

/-! ## Theorems for claim C3 -/

/-- Re-indexing does not change the rows. -/
theorem resetIndex_map_snd {α : Type} (l : List (Nat × Row α)) :
    (resetIndex l).map Prod.snd = l.map Prod.snd := by
  unfold resetIndex
  rw [List.map_map]
  have h : (Prod.snd ∘ fun q : Nat × (Nat × Row α) => (q.1, q.2.2)) =
      (Prod.snd ∘ Prod.snd) := rfl
  rw [h, ← List.map_map, List.enum_map_snd]

/-- Re-indexing produces the dense labels 0, 1, 2, and so on. -/
theorem resetIndex_map_fst {α : Type} (l : List (Nat × Row α)) :
    (resetIndex l).map Prod.fst = List.range (resetIndex l).length := by
  unfold resetIndex
  rw [List.map_map]
  have h : (Prod.fst ∘ fun q : Nat × (Nat × Row α) => (q.1, q.2.2)) =
      (Prod.fst : Nat × (Nat × Row α) → Nat) := rfl
  rw [h, List.enum_map_fst, List.length_map, List.enum_length]

/-- Re-indexing preserves the number of rows. -/
theorem resetIndex_length {α : Type} (l : List (Nat × Row α)) :
    (resetIndex l).length = l.length := by
  unfold resetIndex
  rw [List.length_map, List.enum_length]

/-- C3: for every input data frame, every combination of the two flags, any
threshold, and any behaviour of the language classifier, preprocess_reviews
returns at most as many rows as it was given, the surviving rows (each
enriched with its cleaned text) form a sublist of the enriched input rows,
so their relative order is the input order, and the output is re-indexed
densely from 0. -/
theorem preprocess_reviews_monotone {α : Type}
    (detect : String → Option String) (df : List (Nat × RawRow α))
    (remove_duplicates filter_english : Bool) (dedup_threshold : ℚ) :
    (preprocess_reviews detect df remove_duplicates filter_english
        dedup_threshold).length ≤ df.length ∧
    List.Sublist
      ((preprocess_reviews detect df remove_duplicates filter_english
        dedup_threshold).map Prod.snd)
      (df.map (fun p => enrichRow p.2)) ∧
    (preprocess_reviews detect df remove_duplicates filter_english
        dedup_threshold).map Prod.fst =
      List.range (preprocess_reviews detect df remove_duplicates
        filter_english dedup_threshold).length := by
  unfold preprocess_reviews
  by_cases h0 : df.isEmpty
  · simp [h0]
  · rw [if_neg h0]
    simp only []
    set step1 := df.map (fun p => (p.1, enrichRow p.2)) with hstep1
    set step2 := step1.filter
      (fun p => decide (0 < p.2.cleaned_text.length)) with hstep2
    by_cases h2 : step2.isEmpty
    · simp [h2]
    · rw [if_neg h2]
      set step3 := if filter_english
        then step2.filter (fun p => is_english detect p.2.cleaned_text)
        else step2 with hstep3
      by_cases h3 : step3.isEmpty
      · simp [h3]
      · rw [if_neg h3]
        set dups := find_duplicates
          (step3.map (fun p => p.2.cleaned_text)) dedup_threshold with hdups
        set step4 := if remove_duplicates then
            (if dups.isEmpty then step3
             else resetIndex (dropByPositions step3 dups))
          else step3 with hstep4
        have hsub3 : List.Sublist step3 step2 := by
          rw [hstep3]
          by_cases hfe : filter_english
          · rw [if_pos hfe]
            exact List.filter_sublist step2
          · rw [if_neg hfe]
        have hsub2 : List.Sublist step2 step1 := List.filter_sublist step1
        have hsub4 : List.Sublist ((resetIndex step4).map Prod.snd)
            (step3.map Prod.snd) := by
          rw [resetIndex_map_snd, hstep4]
          by_cases hrd : remove_duplicates
          · rw [if_pos hrd]
            by_cases hde : dups.isEmpty
            · rw [if_pos hde]
            · rw [if_neg hde, resetIndex_map_snd]
              exact (List.filter_sublist step3).map Prod.snd
          · rw [if_neg hrd]
        have hsnd1 : step1.map Prod.snd = df.map (fun p => enrichRow p.2) := by
          rw [hstep1, List.map_map]
          rfl
        have hchain : List.Sublist ((resetIndex step4).map Prod.snd)
            (df.map (fun p => enrichRow p.2)) := by
          rw [← hsnd1]
          exact hsub4.trans ((hsub3.map Prod.snd).trans (hsub2.map Prod.snd))
        refine ⟨?_, hchain, resetIndex_map_fst step4⟩
        have hlen := hchain.length_le
        rw [List.length_map, List.length_map] at hlen
        exact hlen

/-! ## Theorems for the aggregation claims C4, C5, C7 -/

/-- Reading a bucket after a bump: the bumped key grew by one, every other
key is unchanged. -/
theorem bucketGet_bucketBump (b : List (String × Nat)) (k k' : String) :
    bucketGet (bucketBump b k) k' =
      if k' = k then bucketGet b k' + 1 else bucketGet b k' := by
  induction b with
  | nil =>
    by_cases h : k' = k
    · subst h
      simp [bucketBump, bucketGet]
    · simp [bucketBump, bucketGet, h, Ne.symm h]
  | cons p rest ih =>
    by_cases hp : p.1 = k
    · by_cases hq : k' = k
      · subst hq
        simp [bucketBump, bucketGet, hp]
      · simp only [bucketBump, if_pos hp, bucketGet]
        rw [if_neg (fun hh : p.1 = k' => hq (hh.symm.trans hp)), if_neg hq,
          if_neg (fun hh : p.1 = k' => hq (hh.symm.trans hp))]
    · simp only [bucketBump, if_neg hp, bucketGet]
      by_cases hq : p.1 = k'
      · rw [if_pos hq, if_neg (fun hh : k' = k => hp (hq.trans hh)), if_pos hq]
      · rw [if_neg hq, if_neg hq, ih]

/-- statsUpdate on the sentiment string count: the count grows by two. -/
theorem statsUpdate_eq_count (st : AspectStats) (q : String) :
    statsUpdate st ("count") q =
      .ok ⟨st.count + 2, st.buckets,
        if q = "" then st.quotes else st.quotes ++ [(q, "count")]⟩ := by
  unfold statsUpdate
  by_cases hq : q = "" <;> simp [hq]

/-- statsUpdate on the sentiment string quotes: a TypeError. -/
theorem statsUpdate_eq_quotes (st : AspectStats) (q : String) :
    statsUpdate st ("quotes") q = .error "TypeError" := by
  simp [statsUpdate]

/-- statsUpdate on any other sentiment: the count grows by one and the
sentiment bucket is bumped. -/
theorem statsUpdate_eq_other (st : AspectStats) (s q : String)
    (hc : s ≠ "count") (hs : s ≠ "quotes") :
    statsUpdate st s q =
      .ok ⟨st.count + 1, bucketBump st.buckets s,
        if q = "" then st.quotes else st.quotes ++ [(q, s)]⟩ := by
  unfold statsUpdate
  by_cases hq : q = "" <;> simp [hq, hc, hs]

/-- Members of the map after a write: the written statistics or an old
member. -/
theorem statsInsert_mem {m : List (String × AspectStats)} {k : String}
    {st : AspectStats} {p : String × AspectStats}
    (hp : p ∈ statsInsert m k st) : p.2 = st ∨ p ∈ m := by
  induction m with
  | nil =>
    simp only [statsInsert, List.mem_singleton] at hp
    subst hp
    exact Or.inl rfl
  | cons q rest ih =>
    by_cases hq : q.1 = k
    · rw [statsInsert, if_pos hq] at hp
      rcases List.mem_cons.mp hp with rfl | hmem
      · exact Or.inl rfl
      · exact Or.inr (List.mem_cons_of_mem _ hmem)
    · rw [statsInsert, if_neg hq] at hp
      rcases List.mem_cons.mp hp with rfl | hmem
      · exact Or.inr (List.mem_cons_self _ _)
      · rcases ih hmem with h | h
        · exact Or.inl h
        · exact Or.inr (List.mem_cons_of_mem _ h)

/-- A successful lookup returns the statistics of some member. -/
theorem statsFind_eq_some_mem {m : List (String × AspectStats)} {k : String}
    {st : AspectStats} (h : statsFind m k = some st) : ∃ p ∈ m, p.2 = st := by
  induction m with
  | nil => simp [statsFind] at h
  | cons q rest ih =>
    by_cases hq : q.1 = k
    · rw [statsFind, if_pos hq] at h
      exact ⟨q, List.mem_cons_self _ _, Option.some_injective _ h⟩
    · rw [statsFind, if_neg hq] at h
      rcases ih h with ⟨p, hp, he⟩
      exact ⟨p, List.mem_cons_of_mem _ hp, he⟩

/-- The seed statistics satisfy the invariant. -/
theorem statOK_initStats : statOK initStats := by
  simp [statOK, initStats, bucketGet]

/-- Processing one entry whose (lowercased) sentiment is canonical succeeds
and preserves the invariant. -/
theorem processAspect_ok_canonical (m : List (String × AspectStats))
    (e : AspectEntry) (hm : mapOK m)
    (he : ∀ d, e = AspectEntry.dict d →
      pyLower (d.sentiment?.getD "") ∈
        (["positive", "negative", "neutral"] : List String)) :
    ∃ m', processAspect m e = .ok m' ∧ mapOK m' := by
  cases e with
  | nonDict => exact ⟨m, rfl, hm⟩
  | dict d =>
    have hs := he d rfl
    simp only [List.mem_cons, List.not_mem_nil, or_false] at hs
    simp only [processAspect]
    by_cases hn : pyStrip (pyLower (d.name?.getD "")) = ""
    · rw [if_pos hn]
      exact ⟨m, rfl, hm⟩
    · rw [if_neg hn]
      have hst0 : statOK ((statsFind m
          (pyStrip (pyLower (d.name?.getD "")))).getD initStats) := by
        cases hfind : statsFind m (pyStrip (pyLower (d.name?.getD ""))) with
        | none => simpa using statOK_initStats
        | some st =>
          rcases statsFind_eq_some_mem hfind with ⟨p, hp, he2⟩
          simp only [Option.getD_some]
          exact he2 ▸ hm p hp
      have hcq : pyLower (d.sentiment?.getD "") ≠ "count" ∧
          pyLower (d.sentiment?.getD "") ≠ "quotes" := by
        rcases hs with h | h | h <;> rw [h] <;> exact ⟨by decide, by decide⟩
      rw [statsUpdate_eq_other _ _ _ hcq.1 hcq.2]
      refine ⟨_, rfl, ?_⟩
      intro p hp
      rcases statsInsert_mem hp with h | h
      · rw [h]
        simp only [statOK] at hst0 ⊢
        rcases hs with hh | hh | hh <;>
          · rw [hh]
            simp only [bucketGet_bucketBump]
            simp
            omega
      · exact hm p h

/-- Processing one entry whose (lowercased) sentiment is not the string
quotes always succeeds. -/
theorem processAspect_ok (m : List (String × AspectStats)) (e : AspectEntry)
    (he : ∀ d, e = AspectEntry.dict d →
      pyLower (d.sentiment?.getD "") ≠ "quotes") :
    ∃ m', processAspect m e = .ok m' := by
  cases e with
  | nonDict => exact ⟨m, rfl⟩
  | dict d =>
    have hs := he d rfl
    simp only [processAspect]
    by_cases hn : pyStrip (pyLower (d.name?.getD "")) = ""
    · rw [if_pos hn]
      exact ⟨m, rfl⟩
    · rw [if_neg hn]
      by_cases hc : pyLower (d.sentiment?.getD "") = "count"
      · rw [hc, statsUpdate_eq_count]
        exact ⟨_, rfl⟩
      · rw [statsUpdate_eq_other _ _ _ hc hs]
        exact ⟨_, rfl⟩

/-- Folding entries with canonical sentiments succeeds and preserves the
invariant. -/
theorem foldAspects_ok_canonical :
    ∀ (es : List AspectEntry) (m : List (String × AspectStats)), mapOK m →
      (∀ e ∈ es, ∀ d, e = AspectEntry.dict d →
        pyLower (d.sentiment?.getD "") ∈
          (["positive", "negative", "neutral"] : List String)) →
      ∃ m', es.foldlM processAspect m = .ok m' ∧ mapOK m' := by
  intro es
  induction es with
  | nil =>
    intro m hm _
    exact ⟨m, rfl, hm⟩
  | cons e es ih =>
    intro m hm hcanon
    rcases processAspect_ok_canonical m e hm
      (fun d hd => hcanon e (List.mem_cons_self _ _) d hd) with ⟨m1, he1, hm1⟩
    rcases ih m1 hm1
      (fun e2 h2 => hcanon e2 (List.mem_cons_of_mem _ h2)) with ⟨m2, he2, hm2⟩
    refine ⟨m2, ?_, hm2⟩
    rw [List.foldlM_cons, he1]
    simpa using he2

/-- Folding entries with no quotes-named sentiment succeeds. -/
theorem foldAspects_ok :
    ∀ (es : List AspectEntry) (m : List (String × AspectStats)),
      (∀ e ∈ es, ∀ d, e = AspectEntry.dict d →
        pyLower (d.sentiment?.getD "") ≠ "quotes") →
      ∃ m', es.foldlM processAspect m = .ok m' := by
  intro es
  induction es with
  | nil =>
    intro m _
    exact ⟨m, rfl⟩
  | cons e es ih =>
    intro m hq
    rcases processAspect_ok m e
      (fun d hd => hq e (List.mem_cons_self _ _) d hd) with ⟨m1, he1⟩
    rcases ih m1 (fun e2 h2 => hq e2 (List.mem_cons_of_mem _ h2)) with ⟨m2, he2⟩
    refine ⟨m2, ?_⟩
    rw [List.foldlM_cons, he1]
    simpa using he2

/-- Folding rows with canonical sentiments succeeds and preserves the
invariant. -/
theorem foldRows_ok_canonical :
    ∀ (df : List AspectsField) (m : List (String × AspectStats)), mapOK m →
      (∀ af ∈ df, ∀ es, af = AspectsField.list es → ∀ e ∈ es, ∀ d,
        e = AspectEntry.dict d →
        pyLower (d.sentiment?.getD "") ∈
          (["positive", "negative", "neutral"] : List String)) →
      ∃ m', df.foldlM processRow m = .ok m' ∧ mapOK m' := by
  intro df
  induction df with
  | nil =>
    intro m hm _
    exact ⟨m, rfl, hm⟩
  | cons af df ih =>
    intro m hm hcanon
    have hstep : ∃ m1, processRow m af = .ok m1 ∧ mapOK m1 := by
      cases af with
      | nonList => exact ⟨m, rfl, hm⟩
      | list es =>
        exact foldAspects_ok_canonical es m hm
          (hcanon _ (List.mem_cons_self _ _) es rfl)
    rcases hstep with ⟨m1, he1, hm1⟩
    rcases ih m1 hm1
      (fun af2 h2 => hcanon af2 (List.mem_cons_of_mem _ h2)) with ⟨m2, he2, hm2⟩
    refine ⟨m2, ?_, hm2⟩
    rw [List.foldlM_cons, he1]
    simpa using he2

/-- Folding rows with no quotes-named sentiment succeeds. -/
theorem foldRows_ok :
    ∀ (df : List AspectsField) (m : List (String × AspectStats)),
      (∀ af ∈ df, ∀ es, af = AspectsField.list es → ∀ e ∈ es, ∀ d,
        e = AspectEntry.dict d →
        pyLower (d.sentiment?.getD "") ≠ "quotes") →
      ∃ m', df.foldlM processRow m = .ok m' := by
  intro df
  induction df with
  | nil =>
    intro m _
    exact ⟨m, rfl⟩
  | cons af df ih =>
    intro m hq
    have hstep : ∃ m1, processRow m af = .ok m1 := by
      cases af with
      | nonList => exact ⟨m, rfl⟩
      | list es =>
        exact foldAspects_ok es m (hq _ (List.mem_cons_self _ _) es rfl)
    rcases hstep with ⟨m1, he1⟩
    rcases ih m1 (fun af2 h2 => hq af2 (List.mem_cons_of_mem _ h2)) with ⟨m2, he2⟩
    refine ⟨m2, ?_⟩
    rw [List.foldlM_cons, he1]
    simpa using he2

/-- C4: when every aspect mention carries a canonical sentiment (after
lowercasing), aggregation succeeds and every output row satisfies
count = positive_count + negative_count + neutral_count. -/
theorem aggregate_aspects_count_invariant (df : List AspectsField)
    (h : ∀ af ∈ df, ∀ e ∈ entriesOf af, canonicalSentiment e = true) :
    ∃ rows, aggregate_aspects df = .ok rows ∧
      ∀ r ∈ rows,
        r.count = r.positive_count + r.negative_count + r.neutral_count := by
  have h' : ∀ af ∈ df, ∀ es, af = AspectsField.list es → ∀ e ∈ es, ∀ d,
      e = AspectEntry.dict d →
      pyLower (d.sentiment?.getD "") ∈
        (["positive", "negative", "neutral"] : List String) := by
    intro af haf es hes e heE d hd
    have hc := h af haf e (by rw [hes]; exact heE)
    rw [hd] at hc
    simp only [canonicalSentiment, Bool.or_eq_true, decide_eq_true_eq] at hc
    simp only [List.mem_cons, List.not_mem_nil, or_false]
    tauto
  rcases foldRows_ok_canonical df []
    (fun p hp => absurd hp (List.not_mem_nil p)) h' with ⟨m, hfold, hmOK⟩
  refine ⟨List.insertionSort (fun a b => b.count ≤ a.count)
    (m.map buildSummary), ?_, ?_⟩
  · unfold aggregate_aspects
    rw [hfold]
  · intro r hr
    have hr' : r ∈ m.map buildSummary :=
      (List.perm_insertionSort _ _).mem_iff.mp hr
    rcases List.mem_map.mp hr' with ⟨p, hp, heq⟩
    have hOK := hmOK p hp
    simp only [statOK] at hOK
    rw [← heq]
    simpa only [buildSummary] using hOK

/-- Witness for C4 at a concrete input: two well-formed mentions of the
same aspect; the hypothesis holds by evaluation and the theorem applies. -/
theorem aggregate_aspects_count_invariant_witness :
    (∀ af ∈ ([AspectsField.list [AspectEntry.dict
          ⟨some ("food quality"), some ("positive"), none⟩],
        AspectsField.list [AspectEntry.dict
          ⟨some ("food quality"), some ("negative"), none⟩]] :
        List AspectsField),
      ∀ e ∈ entriesOf af, canonicalSentiment e = true) ∧
    ∃ rows, aggregate_aspects
        [AspectsField.list [AspectEntry.dict
          ⟨some ("food quality"), some ("positive"), none⟩],
         AspectsField.list [AspectEntry.dict
          ⟨some ("food quality"), some ("negative"), none⟩]] = .ok rows ∧
      ∀ r ∈ rows,
        r.count = r.positive_count + r.negative_count + r.neutral_count :=
  ⟨by decide, aggregate_aspects_count_invariant _ (by decide)⟩

/-- C7: aggregating two reviews that each mention food quality once, one
positive and one negative, yields exactly one summary row with count 2,
one positive, one negative, no neutral, and ratio one half; and in general
the ratio of any emitted row with positive count is
positive_count / count. -/
theorem aggregate_aspects_food_quality :
    aggregate_aspects
        [AspectsField.list [AspectEntry.dict
          ⟨some ("food quality"), some ("positive"), none⟩],
         AspectsField.list [AspectEntry.dict
          ⟨some ("food quality"), some ("negative"), none⟩]] =
      .ok [⟨"food quality", 2, 1, 1, 0, 1 / 2⟩] ∧
    ∀ (df : List AspectsField) (rows : List AspectSummary),
      aggregate_aspects df = .ok rows → ∀ r ∈ rows, 0 < r.count →
        r.positive_ratio = (r.positive_count : ℚ) / (r.count : ℚ) := by
  constructor
  · have hm : List.foldlM processRow ([] : List (String × AspectStats))
        [AspectsField.list [AspectEntry.dict
          ⟨some ("food quality"), some ("positive"), none⟩],
         AspectsField.list [AspectEntry.dict
          ⟨some ("food quality"), some ("negative"), none⟩]] =
        .ok [("food quality",
          ⟨2, [("positive", 1), ("negative", 1), ("neutral", 0)], []⟩)] := by
      rfl
    unfold aggregate_aspects
    rw [hm]
    simp only [List.map_cons, List.map_nil, List.insertionSort,
      List.orderedInsert, buildSummary]
    simp [bucketGet]
  · intro df rows hagg r hr hpos
    cases hfold : List.foldlM processRow ([] : List (String × AspectStats)) df with
    | error msg =>
      unfold aggregate_aspects at hagg
      rw [hfold] at hagg
      exact absurd hagg (by simp)
    | ok m =>
      unfold aggregate_aspects at hagg
      rw [hfold] at hagg
      have hrows : rows = List.insertionSort (fun a b => b.count ≤ a.count)
          (m.map buildSummary) := by
        have := hagg
        simp only [Except.ok.injEq] at this
        exact this.symm
      rw [hrows] at hr
      have hr' : r ∈ m.map buildSummary :=
        (List.perm_insertionSort _ _).mem_iff.mp hr
      rcases List.mem_map.mp hr' with ⟨p, _, heq⟩
      rw [← heq] at hpos ⊢
      simp only [buildSummary] at hpos ⊢
      rw [if_pos hpos]

/-- Witness for C7: the general ratio statement applied to the single
emitted summary row of the concrete aggregation. -/
theorem aggregate_aspects_food_quality_witness :
    (0 : Nat) < 2 ∧
    (⟨"food quality", 2, 1, 1, 0, 1 / 2⟩ : AspectSummary).positive_ratio =
      (((⟨"food quality", 2, 1, 1, 0, 1 / 2⟩ : AspectSummary).positive_count : ℚ) /
        ((⟨"food quality", 2, 1, 1, 0, 1 / 2⟩ : AspectSummary).count : ℚ)) := by
  refine ⟨by decide, ?_⟩
  exact aggregate_aspects_food_quality.2 _ _
    aggregate_aspects_food_quality.1 _ (List.mem_singleton_self _) (by decide)

/-! ## Shared helper lemmas for the quote ranker -/

/-- Closed form of the ranker result: the first top_n confidence-sorted
positive-or-negative quotes followed by neutral backfill. -/
theorem top_quotes_eq (df : List RankRow) (a : String) (n : Nat) :
    get_top_quotes_for_aspect df a n =
      ((sortQuotes (collectQuotes df a)).filter isPosNeg).take n ++
      ((sortQuotes (collectQuotes df a)).filter isNeutralQ).take
        (n - (((sortQuotes (collectQuotes df a)).filter isPosNeg).take n).length) := by
  unfold get_top_quotes_for_aspect
  simp only []
  set pn := (sortQuotes (collectQuotes df a)).filter isPosNeg with hpn
  set neu := (sortQuotes (collectQuotes df a)).filter isNeutralQ with hneu
  by_cases h : (pn.take n).length < n
  · rw [if_pos h]
    apply List.take_of_length_le
    rw [List.length_append, List.length_take, List.length_take]
    omega
  · rw [if_neg h]
    have hlen : (pn.take n).length = n := by
      have := List.length_take n pn
      omega
    rw [hlen, Nat.sub_self, List.take_zero, List.append_nil]
    exact List.take_of_length_le (le_of_eq hlen)

/-- The ranker never returns more than top_n quotes. -/
theorem top_quotes_length_le (df : List RankRow) (a : String) (n : Nat) :
    (get_top_quotes_for_aspect df a n).length ≤ n := by
  rw [top_quotes_eq]
  rw [List.length_append, List.length_take, List.length_take]
  omega

/-- Every returned quote comes from one of the two partitions. -/
theorem top_quotes_mem_partition (df : List RankRow) (a : String) (n : Nat)
    (q : Quote) (hq : q ∈ get_top_quotes_for_aspect df a n) :
    q ∈ (sortQuotes (collectQuotes df a)).filter isPosNeg ∨
    q ∈ (sortQuotes (collectQuotes df a)).filter isNeutralQ := by
  rw [top_quotes_eq] at hq
  rcases List.mem_append.mp hq with h | h
  · exact Or.inl (List.mem_of_mem_take h)
  · exact Or.inr (List.mem_of_mem_take h)

/-- Every collected quote string is nonempty. -/
theorem collectQuotes_quote_ne :
    ∀ (df : List RankRow) (a : String) (acc : List Quote),
      (∀ q ∈ acc, q.quote ≠ "") →
      ∀ q ∈ df.foldl (fun acc row =>
        match row.aspects with
        | .nonList => acc
        | .list es => acc ++ es.filterMap (fun e =>
            match e with
            | .nonDict => none
            | .dict d =>
              if pyStrip (pyLower (d.name?.getD "")) =
                  pyStrip (pyLower a) then
                (if d.quote?.getD "" = "" then none
                 else some ⟨d.quote?.getD "", d.sentiment?.getD "neutral",
                   row.sentiment_confidence.getD (1 / 2)⟩)
              else none)) acc, q.quote ≠ "" := by
  intro df
  induction df with
  | nil =>
    intro a acc hacc q hq
    exact hacc q hq
  | cons row rest ih =>
    intro a acc hacc q hq
    rw [List.foldl_cons] at hq
    refine ih a _ ?_ q hq
    intro q2 hq2
    cases hrow : row.aspects with
    | nonList =>
      rw [hrow] at hq2
      exact hacc q2 hq2
    | list es =>
      rw [hrow] at hq2
      rcases List.mem_append.mp hq2 with h | h
      · exact hacc q2 h
      · rcases List.mem_filterMap.mp h with ⟨e, _, hfe⟩
        cases e with
        | nonDict => simp at hfe
        | dict d =>
          simp only [] at hfe
          by_cases h1 : pyStrip (pyLower (d.name?.getD "")) =
              pyStrip (pyLower a)
          · rw [if_pos h1] at hfe
            by_cases h2 : d.quote?.getD "" = ""
            · rw [if_pos h2] at hfe
              simp at hfe
            · rw [if_neg h2] at hfe
              simp only [Option.some.injEq] at hfe
              rw [← hfe]
              exact h2
          · rw [if_neg h1] at hfe
            simp at hfe

/-- The nonempty-quote property carries to the ranker output. -/
theorem top_quotes_quote_ne (df : List RankRow) (a : String) (n : Nat) :
    ∀ q ∈ get_top_quotes_for_aspect df a n, q.quote ≠ "" := by
  intro q hq
  have hcoll : ∀ q2 ∈ collectQuotes df a, q2.quote ≠ "" := by
    intro q2 hq2
    exact collectQuotes_quote_ne df a [] (by simp) q2 hq2
  rcases top_quotes_mem_partition df a n q hq with h | h <;>
  · have hmem := (List.mem_filter.mp h).1
    have hmem2 : q ∈ collectQuotes df a :=
      (List.perm_insertionSort _ _).mem_iff.mp hmem
    exact hcoll q hmem2

/-- C5 counterexample: one fully dict-shaped mention with a valid name and
the sentiment string quotes makes the aggregator raise a TypeError (the
statistics dict holds a list under the key quotes, and the sentiment write
adds an integer to it). -/
theorem aggregate_aspects_raises_on_quotes_sentiment :
    aggregate_aspects [AspectsField.list [AspectEntry.dict
      ⟨some ("food"), some ("quotes"), some ("tasty")⟩]] =
      .error "TypeError" := by
  have hm : List.foldlM processRow ([] : List (String × AspectStats))
      [AspectsField.list [AspectEntry.dict
        ⟨some ("food"), some ("quotes"), some ("tasty")⟩]] =
      .error "TypeError" := by
    rfl
  unfold aggregate_aspects
  rw [hm]

/-- C5 (amended): the ranker always returns a well-formed result (at most
top_n quotes, each with a nonempty quote string) under every malformation,
and the aggregator never raises provided no mention carries the (lowercased)
sentiment string quotes; with such a sentiment the aggregator raises a
TypeError. -/
theorem malformed_annotations_tolerated :
    (∀ df : List AspectsField,
      (∀ af ∈ df, ∀ e ∈ entriesOf af, notQuotesSentiment e = true) →
      ∃ rows, aggregate_aspects df = .ok rows) ∧
    (∀ (df : List RankRow) (aspect_name : String) (n : Nat),
      (get_top_quotes_for_aspect df aspect_name n).length ≤ n ∧
      ∀ q ∈ get_top_quotes_for_aspect df aspect_name n, q.quote ≠ "") := by
  constructor
  · intro df h
    have h' : ∀ af ∈ df, ∀ es, af = AspectsField.list es → ∀ e ∈ es, ∀ d,
        e = AspectEntry.dict d →
        pyLower (d.sentiment?.getD "") ≠ "quotes" := by
      intro af haf es hes e heE d hd
      have hc := h af haf e (by rw [hes]; exact heE)
      rw [hd] at hc
      simpa [notQuotesSentiment] using hc
    rcases foldRows_ok df [] h' with ⟨m, hfold⟩
    refine ⟨List.insertionSort (fun a b => b.count ≤ a.count)
      (m.map buildSummary), ?_⟩
    unfold aggregate_aspects
    rw [hfold]
  · intro df aspect_name n
    exact ⟨top_quotes_length_le df aspect_name n,
      top_quotes_quote_ne df aspect_name n⟩

/-- Witness for the amended C5: a thoroughly malformed input (a non-list
cell, a non-dict entry, mentions with missing keys) passes the hypothesis
and aggregates successfully; the ranker bound is exercised at top_n 2. -/
theorem malformed_annotations_tolerated_witness :
    (∀ af ∈ ([AspectsField.nonList,
        AspectsField.list [AspectEntry.nonDict,
          AspectEntry.dict ⟨none, none, none⟩,
          AspectEntry.dict ⟨some ("taste"), none, some ("good")⟩]] :
        List AspectsField),
      ∀ e ∈ entriesOf af, notQuotesSentiment e = true) ∧
    (∃ rows, aggregate_aspects [AspectsField.nonList,
        AspectsField.list [AspectEntry.nonDict,
          AspectEntry.dict ⟨none, none, none⟩,
          AspectEntry.dict ⟨some ("taste"), none, some ("good")⟩]] =
      .ok rows) ∧
    (get_top_quotes_for_aspect
      [⟨AspectsField.list [AspectEntry.dict
        ⟨some ("taste"), none, some ("good")⟩], some 1⟩] ("taste") 2).length ≤ 2 := by
  refine ⟨by decide, malformed_annotations_tolerated.1 _ (by decide), ?_⟩
  exact (malformed_annotations_tolerated.2 _ ("taste") 2).1

/-! ## Theorems for claims C6 and C10 -/

/-- C6: the ranker returns at most n quotes, its result is exactly the
first n confidence-sorted positive-or-negative quotes followed by
confidence-sorted neutral backfill (both partitions in descending
confidence order), and with 2 positive-or-negative quotes, 5 neutral quotes
and n = 3 the result is the 2 polarized quotes then exactly 1 neutral
quote, total length 3. -/
theorem top_quotes_priority (df : List RankRow) (a : String) (n : Nat) :
    (get_top_quotes_for_aspect df a n).length ≤ n ∧
    get_top_quotes_for_aspect df a n =
      ((sortQuotes (collectQuotes df a)).filter isPosNeg).take n ++
      ((sortQuotes (collectQuotes df a)).filter isNeutralQ).take
        (n - (((sortQuotes (collectQuotes df a)).filter isPosNeg).take n).length) ∧
    ((sortQuotes (collectQuotes df a)).filter isPosNeg).Sorted confGE ∧
    ((sortQuotes (collectQuotes df a)).filter isNeutralQ).Sorted confGE ∧
    (((sortQuotes (collectQuotes df a)).filter isPosNeg).length = 2 →
      ((sortQuotes (collectQuotes df a)).filter isNeutralQ).length = 5 →
      n = 3 →
      get_top_quotes_for_aspect df a n =
        (sortQuotes (collectQuotes df a)).filter isPosNeg ++
        ((sortQuotes (collectQuotes df a)).filter isNeutralQ).take 1 ∧
      (get_top_quotes_for_aspect df a n).length = 3) := by
  have hsorted : (sortQuotes (collectQuotes df a)).Sorted confGE :=
    List.sorted_insertionSort confGE (collectQuotes df a)
  refine ⟨top_quotes_length_le df a n, top_quotes_eq df a n,
    hsorted.sublist (List.filter_sublist _),
    hsorted.sublist (List.filter_sublist _), ?_⟩
  intro h2 h5 hn
  subst hn
  have htk : ((sortQuotes (collectQuotes df a)).filter isPosNeg).take 3 =
      (sortQuotes (collectQuotes df a)).filter isPosNeg :=
    List.take_of_length_le (by omega)
  constructor
  · rw [top_quotes_eq, htk, h2]
  · rw [top_quotes_eq, htk, h2]
    rw [List.length_append, h2, List.length_take, h5]
    omega

/-- Witness for C6 at the concrete scenario of the claim: one row carrying
two polarized mentions and five neutral mentions of the same aspect. -/
theorem top_quotes_priority_witness :
    ((sortQuotes (collectQuotes
      [⟨AspectsField.list [
        AspectEntry.dict ⟨some ("a"), some ("positive"), some ("p1")⟩,
        AspectEntry.dict ⟨some ("a"), some ("negative"), some ("p2")⟩,
        AspectEntry.dict ⟨some ("a"), some ("neutral"), some ("n1")⟩,
        AspectEntry.dict ⟨some ("a"), some ("neutral"), some ("n2")⟩,
        AspectEntry.dict ⟨some ("a"), some ("neutral"), some ("n3")⟩,
        AspectEntry.dict ⟨some ("a"), some ("neutral"), some ("n4")⟩,
        AspectEntry.dict ⟨some ("a"), some ("neutral"), some ("n5")⟩],
        some 1⟩] ("a"))).filter isPosNeg).length = 2 ∧
    ((sortQuotes (collectQuotes
      [⟨AspectsField.list [
        AspectEntry.dict ⟨some ("a"), some ("positive"), some ("p1")⟩,
        AspectEntry.dict ⟨some ("a"), some ("negative"), some ("p2")⟩,
        AspectEntry.dict ⟨some ("a"), some ("neutral"), some ("n1")⟩,
        AspectEntry.dict ⟨some ("a"), some ("neutral"), some ("n2")⟩,
        AspectEntry.dict ⟨some ("a"), some ("neutral"), some ("n3")⟩,
        AspectEntry.dict ⟨some ("a"), some ("neutral"), some ("n4")⟩,
        AspectEntry.dict ⟨some ("a"), some ("neutral"), some ("n5")⟩],
        some 1⟩] ("a"))).filter isNeutralQ).length = 5 ∧
    (get_top_quotes_for_aspect
      [⟨AspectsField.list [
        AspectEntry.dict ⟨some ("a"), some ("positive"), some ("p1")⟩,
        AspectEntry.dict ⟨some ("a"), some ("negative"), some ("p2")⟩,
        AspectEntry.dict ⟨some ("a"), some ("neutral"), some ("n1")⟩,
        AspectEntry.dict ⟨some ("a"), some ("neutral"), some ("n2")⟩,
        AspectEntry.dict ⟨some ("a"), some ("neutral"), some ("n3")⟩,
        AspectEntry.dict ⟨some ("a"), some ("neutral"), some ("n4")⟩,
        AspectEntry.dict ⟨some ("a"), some ("neutral"), some ("n5")⟩],
        some 1⟩] ("a") 3).length = 3 := by
  refine ⟨by decide, by decide, ?_⟩
  exact ((top_quotes_priority _ ("a") 3).2.2.2.2 (by decide) (by decide) rfl).2

/-- C10: every quote the ranker returns carries one of the three canonical
sentiment strings; a mention with a missing sentiment defaults to neutral
and is returned, while a mention whose sentiment is any other string (the
ranker does not lowercase) is returned from neither partition even when
fewer than n quotes are available. -/
theorem top_quotes_sentiment_labels (df : List RankRow) (a : String)
    (n : Nat) :
    (∀ q ∈ get_top_quotes_for_aspect df a n,
      q.sentiment ∈ (["positive", "negative", "neutral"] : List String)) ∧
    get_top_quotes_for_aspect
      [⟨AspectsField.list [AspectEntry.dict ⟨some ("a"), none, some ("qx")⟩],
        some 1⟩] ("a") 3 = [⟨"qx", "neutral", 1⟩] ∧
    get_top_quotes_for_aspect
      [⟨AspectsField.list [AspectEntry.dict
        ⟨some ("a"), some ("Positive"), some ("qy")⟩], some 1⟩] ("a") 3 = [] := by
  refine ⟨?_, by decide, by decide⟩
  intro q hq
  rcases top_quotes_mem_partition df a n q hq with h | h
  · have := (List.mem_filter.mp h).2
    simp only [isPosNeg, Bool.or_eq_true, decide_eq_true_eq] at this
    simp only [List.mem_cons, List.not_mem_nil, or_false]
    tauto
  · have := (List.mem_filter.mp h).2
    simp only [isNeutralQ, decide_eq_true_eq] at this
    simp [this]

/-- Witness for C10: the defaulted-neutral quote is a member of the
concrete ranker output and the theorem certifies its sentiment label. -/
theorem top_quotes_sentiment_labels_witness :
    (⟨"qx", "neutral", 1⟩ : Quote) ∈ get_top_quotes_for_aspect
      [⟨AspectsField.list [AspectEntry.dict ⟨some ("a"), none, some ("qx")⟩],
        some 1⟩] ("a") 3 ∧
    (⟨"qx", "neutral", 1⟩ : Quote).sentiment ∈
      (["positive", "negative", "neutral"] : List String) := by
  have hmem : (⟨"qx", "neutral", 1⟩ : Quote) ∈ get_top_quotes_for_aspect
      [⟨AspectsField.list [AspectEntry.dict ⟨some ("a"), none, some ("qx")⟩],
        some 1⟩] ("a") 3 := by
    rw [(top_quotes_sentiment_labels [] ("") 0).2.1]
    exact List.mem_singleton_self _
  exact ⟨hmem, (top_quotes_sentiment_labels _ ("a") 3).1 _ hmem⟩

/-! ## Theorems for claim C9 -/

/-- The tag scanner passes text free of opening angle brackets through. -/
theorem scanSubF_tag_id : ∀ (f : Nat) (prev : Option Char) (l : List Char),
    '<' ∉ l → scanSubF tagTry f prev l = l := by
  intro f
  induction f with
  | zero => intro prev l _; rfl
  | succ f ih =>
    intro prev l hl
    cases l with
    | nil => rfl
    | cons c rest =>
      have hc : c ≠ '<' := fun h => hl (h ▸ List.mem_cons_self _ _)
      have htry : tagTry prev (c :: rest) = none := by
        simp only [tagTry, if_neg hc]
      simp only [scanSubF, htry]
      exact congrArg (c :: ·)
        (ih (some c) rest fun h => hl (List.mem_cons_of_mem _ h))

/-- A URL match always starts with the four characters http. -/
theorem urlTry_some_starts_http (prev : Option Char) (l : List Char) (L : Nat)
    (h : urlTry prev l = some L) : ("http").data <+: l := by
  unfold urlTry at h
  by_cases h8 : l.take 8 = ("https://").data
  · have hp : ("https://").data <+: l := by
      rw [List.prefix_iff_eq_take]
      have hlen : ("https://").data.length = 8 := rfl
      rw [hlen]
      exact h8.symm
    exact (show ("http").data <+: ("https://").data by decide).trans hp
  · rw [if_neg h8] at h
    by_cases h7 : l.take 7 = ("http://").data
    · have hp : ("http://").data <+: l := by
        rw [List.prefix_iff_eq_take]
        have hlen : ("http://").data.length = 7 := rfl
        rw [hlen]
        exact h7.symm
      exact (show ("http").data <+: ("http://").data by decide).trans hp
    · rw [if_neg h7] at h
      exact absurd h (by simp)

/-- The URL scanner passes text with no http substring through. -/
theorem scanSubF_url_id : ∀ (f : Nat) (prev : Option Char) (l : List Char),
    ¬ ("http").data <:+: l → scanSubF urlTry f prev l = l := by
  intro f
  induction f with
  | zero => intro prev l _; rfl
  | succ f ih =>
    intro prev l hl
    cases l with
    | nil => rfl
    | cons c rest =>
      have htry : urlTry prev (c :: rest) = none := by
        cases h : urlTry prev (c :: rest) with
        | none => rfl
        | some L =>
          exact absurd (urlTry_some_starts_http _ _ _ h).isInfix hl
      simp only [scanSubF, htry]
      refine congrArg (c :: ·) (ih (some c) rest fun h => ?_)
      exact hl (List.infix_cons_iff.mpr (Or.inr h))

/-- An email match always contains an at sign. -/
theorem emailTry_some_mem (prev : Option Char) (l : List Char) (L : Nat)
    (h : emailTry prev l = some L) : '@' ∈ l := by
  unfold emailTry at h
  by_cases hb : wordAt prev = wordAt l.head?
  · rw [if_pos hb] at h
    simp at h
  · rw [if_neg hb] at h
    by_cases hloc : (l.takeWhile isLocalChar).length = 0
    · rw [if_pos hloc] at h
      simp at h
    · rw [if_neg hloc] at h
      by_cases hat : (l.drop (l.takeWhile isLocalChar).length).head? = some '@'
      · have hmem : '@' ∈ l.drop (l.takeWhile isLocalChar).length :=
          List.mem_of_mem_head? hat
        exact List.drop_subset _ _ hmem
      · rw [if_neg hat] at h
        simp at h

/-- The email scanner passes text free of at signs through. -/
theorem scanSubF_email_id : ∀ (f : Nat) (prev : Option Char) (l : List Char),
    '@' ∉ l → scanSubF emailTry f prev l = l := by
  intro f
  induction f with
  | zero => intro prev l _; rfl
  | succ f ih =>
    intro prev l hl
    cases l with
    | nil => rfl
    | cons c rest =>
      have htry : emailTry prev (c :: rest) = none := by
        cases h : emailTry prev (c :: rest) with
        | none => rfl
        | some L => exact absurd (emailTry_some_mem _ _ _ h) hl
      simp only [scanSubF, htry]
      exact congrArg (c :: ·)
        (ih (some c) rest fun h => hl (List.mem_cons_of_mem _ h))

/-- The head surviving a dropWhile fails the predicate. -/
theorem dropWhile_head_not (p : Char → Bool) :
    ∀ (l : List Char) (c : Char), (l.dropWhile p).head? = some c →
      p c = false := by
  intro l
  induction l with
  | nil => intro c h; simp [List.dropWhile] at h
  | cons a rest ih =>
    intro c h
    by_cases hpa : p a = true
    · rw [List.dropWhile_cons, if_pos hpa] at h
      exact ih c h
    · rw [List.dropWhile_cons, if_neg hpa] at h
      simp only [List.head?_cons, Option.some.injEq] at h
      rw [← h]
      simpa using hpa

/-- Characters of collapsed text: original non-whitespace characters or
single spaces. -/
theorem collapseF_mem : ∀ (f : Nat) (l : List Char), l.length ≤ f →
    ∀ c ∈ collapseF f l, (c ∈ l ∧ isPySpace c = false) ∨ c = ' ' := by
  intro f
  induction f with
  | zero =>
    intro l hf c hc
    cases l with
    | nil => simp [collapseF] at hc
    | cons a rest => simp at hf
  | succ f ih =>
    intro l hf c hc
    cases l with
    | nil => simp [collapseF] at hc
    | cons a rest =>
      by_cases hs : isPySpace a = true
      · rw [collapseF, if_pos hs] at hc
        rcases List.mem_cons.mp hc with rfl | hc'
        · exact Or.inr rfl
        · have hlen : (rest.dropWhile isPySpace).length ≤ f := by
            have h1 := (@List.dropWhile_suffix _ rest isPySpace).sublist.length_le
            simp at hf
            omega
          rcases ih _ hlen c hc' with ⟨hmem, hns⟩ | hsp
          · exact Or.inl ⟨List.mem_cons_of_mem _
              ((List.dropWhile_suffix isPySpace).sublist.subset hmem), hns⟩
          · exact Or.inr hsp
      · rw [collapseF, if_neg hs] at hc
        rcases List.mem_cons.mp hc with rfl | hc'
        · exact Or.inl ⟨List.mem_cons_self _ _, by simpa using hs⟩
        · have hlen : rest.length ≤ f := by simp at hf; omega
          rcases ih _ hlen c hc' with ⟨hmem, hns⟩ | hsp
          · exact Or.inl ⟨List.mem_cons_of_mem _ hmem, hns⟩
          · exact Or.inr hsp

/-- The head of collapsed text is not whitespace when the head of the input
is not. -/
theorem collapseF_head (f : Nat) (l : List Char)
    (hl : ∀ c, l.head? = some c → isPySpace c = false) :
    ∀ c, (collapseF f l).head? = some c → isPySpace c = false := by
  cases f with
  | zero => exact hl
  | succ f =>
    cases l with
    | nil => intro c h; simp [collapseF] at h
    | cons a rest =>
      intro c h
      have ha := hl a rfl
      rw [collapseF, if_neg (by simp [ha])] at h
      simp only [List.head?_cons, Option.some.injEq] at h
      rw [← h]
      exact ha

/-- Collapsed text has no two adjacent whitespace characters. -/
theorem collapseF_chain : ∀ (f : Nat) (l : List Char), l.length ≤ f →
    List.Chain' noTwoSpaces (collapseF f l) := by
  intro f
  induction f with
  | zero =>
    intro l hf
    cases l with
    | nil => simp [collapseF]
    | cons a rest => simp at hf
  | succ f ih =>
    intro l hf
    cases l with
    | nil => simp [collapseF]
    | cons a rest =>
      by_cases hs : isPySpace a = true
      · rw [collapseF, if_pos hs]
        have hlen : (rest.dropWhile isPySpace).length ≤ f := by
          have h1 := (@List.dropWhile_suffix _ rest isPySpace).sublist.length_le
          simp at hf
          omega
        refine List.chain'_cons'.mpr ⟨?_, ih _ hlen⟩
        intro b hb
        exact Or.inr (collapseF_head f (rest.dropWhile isPySpace)
          (dropWhile_head_not isPySpace rest) b hb)
      · rw [collapseF, if_neg hs]
        have hlen : rest.length ≤ f := by simp at hf; omega
        refine List.chain'_cons'.mpr ⟨?_, ih _ hlen⟩
        intro b _
        exact Or.inl (by simpa using hs)

/-- Collapsing is the identity on text whose whitespace is single plain
spaces with no two adjacent. -/
theorem collapseF_id : ∀ (f : Nat) (l : List Char), l.length ≤ f →
    (∀ c ∈ l, isPySpace c = true → c = ' ') →
    List.Chain' noTwoSpaces l → collapseF f l = l := by
  intro f
  induction f with
  | zero =>
    intro l hf _ _
    rfl
  | succ f ih =>
    intro l hf hsp hch
    cases l with
    | nil => rfl
    | cons a rest =>
      have hlen : rest.length ≤ f := by simp at hf; omega
      have hch' : List.Chain' noTwoSpaces rest := (List.chain'_cons'.mp hch).2
      have hsp' : ∀ c ∈ rest, isPySpace c = true → c = ' ' :=
        fun c hc => hsp c (List.mem_cons_of_mem _ hc)
      by_cases hs : isPySpace a = true
      · rw [collapseF, if_pos hs]
        have ha : a = ' ' := hsp a (List.mem_cons_self _ _) hs
        have hdw : rest.dropWhile isPySpace = rest := by
          cases rest with
          | nil => rfl
          | cons b rest2 =>
            have hrb := (List.chain'_cons'.mp hch).1 b rfl
            rcases hrb with h | h
            · rw [h] at hs
              simp at hs
            · rw [List.dropWhile_cons, if_neg (by simp [h])]
        rw [hdw, ih rest hlen hsp' hch', ha]
      · rw [collapseF, if_neg hs]
        rw [ih rest hlen hsp' hch']

/-- A whitespace-free prefix of collapsed text is a prefix of the
original. -/
theorem collapseF_prefix_transfer : ∀ (f : Nat) (l u : List Char), l.length ≤ f →
    (∀ c ∈ u, isPySpace c = false) → u <+: collapseF f l → u <+: l := by
  intro f
  induction f with
  | zero =>
    intro l u _ _ h
    exact h
  | succ f ih =>
    intro l u hf hu h
    cases l with
    | nil =>
      simpa [collapseF] using h
    | cons a rest =>
      by_cases hs : isPySpace a = true
      · rw [collapseF, if_pos hs] at h
        cases u with
        | nil => exact List.nil_prefix
        | cons d u2 =>
          have hd := (List.cons_prefix_cons.mp h).1
          have := hu d (List.mem_cons_self _ _)
          rw [hd] at this
          simp [isPySpace] at this
      · rw [collapseF, if_neg hs] at h
        cases u with
        | nil => exact List.nil_prefix
        | cons d u2 =>
          have hlen : rest.length ≤ f := by simp at hf; omega
          rcases List.cons_prefix_cons.mp h with ⟨hd, htail⟩
          exact List.cons_prefix_cons.mpr ⟨hd,
            ih rest u2 hlen (fun c hc => hu c (List.mem_cons_of_mem _ hc)) htail⟩

/-- A whitespace-free infix of collapsed text is an infix of the
original. -/
theorem collapseF_infix_transfer : ∀ (f : Nat) (l u : List Char), l.length ≤ f →
    (∀ c ∈ u, isPySpace c = false) → u <:+: collapseF f l → u <:+: l := by
  intro f
  induction f with
  | zero =>
    intro l u _ _ h
    exact h
  | succ f ih =>
    intro l u hf hu h
    cases l with
    | nil =>
      simpa [collapseF] using h
    | cons a rest =>
      by_cases hs : isPySpace a = true
      · rw [collapseF, if_pos hs] at h
        have hlen : (rest.dropWhile isPySpace).length ≤ f := by
          have h1 := (@List.dropWhile_suffix _ rest isPySpace).sublist.length_le
          simp at hf
          omega
        rcases List.infix_cons_iff.mp h with hpre | hinf
        · cases u with
          | nil => exact List.nil_infix
          | cons d u2 =>
            have hd := (List.cons_prefix_cons.mp hpre).1
            have := hu d (List.mem_cons_self _ _)
            rw [hd] at this
            simp [isPySpace] at this
        · have := ih _ u hlen hu hinf
          have h2 : u <:+: rest :=
            this.trans (List.dropWhile_suffix isPySpace).isInfix
          exact List.infix_cons_iff.mpr (Or.inr h2)
      · rw [collapseF, if_neg hs] at h
        have hlen : rest.length ≤ f := by simp at hf; omega
        rcases List.infix_cons_iff.mp h with hpre | hinf
        · cases u with
          | nil => exact List.nil_infix
          | cons d u2 =>
            rcases List.cons_prefix_cons.mp hpre with ⟨hd, htail⟩
            have := collapseF_prefix_transfer f rest u2 hlen
              (fun c hc => hu c (List.mem_cons_of_mem _ hc)) htail
            exact (List.cons_prefix_cons.mpr ⟨hd, this⟩).isInfix
        · exact List.infix_cons_iff.mpr (Or.inr (ih rest u hlen hu hinf))

/-- dropWhile is the identity when the head already fails the predicate. -/
theorem dropWhile_eq_self (p : Char → Bool) (l : List Char)
    (h : ∀ c, l.head? = some c → p c = false) : l.dropWhile p = l := by
  cases l with
  | nil => rfl
  | cons a rest =>
    rw [List.dropWhile_cons, if_neg (by simp [h a rfl])]

/-- The head of stripped text is not whitespace. -/
theorem pyStripL_head (l : List Char) :
    ∀ c, (pyStripL l).head? = some c → isPySpace c = false := by
  intro c h
  unfold pyStripL at h
  rw [List.head?_reverse] at h
  obtain ⟨t, ht⟩ :=
    @List.dropWhile_suffix _ ((l.dropWhile isPySpace).reverse) isPySpace
  have h2 : (l.dropWhile isPySpace).reverse.getLast? = some c := by
    rw [← ht, List.getLast?_append, h]
    rfl
  rw [List.getLast?_reverse] at h2
  exact dropWhile_head_not isPySpace l c h2

/-- The last character of stripped text is not whitespace. -/
theorem pyStripL_last (l : List Char) :
    ∀ c, (pyStripL l).getLast? = some c → isPySpace c = false := by
  intro c h
  unfold pyStripL at h
  rw [List.getLast?_reverse] at h
  exact dropWhile_head_not isPySpace _ c h

/-- Stripping is the identity when both ends are already not whitespace. -/
theorem pyStripL_eq_self (l : List Char)
    (hh : ∀ c, l.head? = some c → isPySpace c = false)
    (hl : ∀ c, l.getLast? = some c → isPySpace c = false) :
    pyStripL l = l := by
  unfold pyStripL
  rw [dropWhile_eq_self _ _ hh]
  rw [dropWhile_eq_self _ _
    (fun c h => hl c (by rwa [List.head?_reverse] at h))]
  exact List.reverse_reverse l

/-- Stripping is idempotent. -/
theorem pyStripL_idem (l : List Char) : pyStripL (pyStripL l) = pyStripL l :=
  pyStripL_eq_self _ (pyStripL_head l) (pyStripL_last l)

/-- Stripped text only keeps characters of the input. -/
theorem pyStripL_subset (l : List Char) : pyStripL l ⊆ l := by
  intro c hc
  unfold pyStripL at hc
  rw [List.mem_reverse] at hc
  have h1 := (List.dropWhile_suffix isPySpace).sublist.subset hc
  rw [List.mem_reverse] at h1
  exact (List.dropWhile_suffix isPySpace).sublist.subset h1

/-- Stripped text is an infix of the input. -/
theorem pyStripL_infix_of_self (l : List Char) : pyStripL l <:+: l := by
  obtain ⟨t, ht⟩ :=
    @List.dropWhile_suffix _ ((l.dropWhile isPySpace).reverse) isPySpace
  have hpre : pyStripL l <+: l.dropWhile isPySpace := by
    refine ⟨t.reverse, ?_⟩
    unfold pyStripL
    rw [← List.reverse_append, ht, List.reverse_reverse]
  exact hpre.isInfix.trans (List.dropWhile_suffix isPySpace).isInfix

/-- Stripping preserves freedom from adjacent whitespace. -/
theorem pyStripL_chain (l : List Char)
    (h : List.Chain' noTwoSpaces l) :
    List.Chain' noTwoSpaces (pyStripL l) := by
  have hA : List.Chain' noTwoSpaces (l.dropWhile isPySpace) :=
    h.suffix (List.dropWhile_suffix isPySpace)
  have hAr : List.Chain' noTwoSpaces (l.dropWhile isPySpace).reverse := by
    rw [List.chain'_reverse]
    exact hA.imp (fun _ _ hab => Or.symm hab)
  have hB : List.Chain' noTwoSpaces
      ((l.dropWhile isPySpace).reverse.dropWhile isPySpace) :=
    hAr.suffix (List.dropWhile_suffix isPySpace)
  unfold pyStripL
  rw [List.chain'_reverse]
  exact hB.imp (fun _ _ hab => Or.symm hab)

/-- C9 counterexample: clean_text is not idempotent.  On the input
http:a@b.cc//x the email pass removes a@b.cc and splices the remainder into
http://x, which the URL pass of a second application then removes
entirely. -/
theorem clean_text_not_idempotent :
    clean_text (clean_text ("http:a@b.cc//x")) ≠
      clean_text ("http:a@b.cc//x") := by
  decide

set_option maxHeartbeats 800000 in
/-- C9 (amended): clean_text is idempotent on every input containing no
opening angle bracket, no at sign, and no http substring — on such inputs
the three removal passes are the identity and whitespace collapsing plus
stripping is idempotent.  On general inputs idempotence fails. -/
theorem clean_text_idempotent_on_plain (s : String)
    (h1 : '<' ∉ s.data) (h2 : '@' ∉ s.data)
    (h3 : ¬ ("http").data <:+: s.data) :
    clean_text (clean_text s) = clean_text s := by
  have hsub : ∀ l : List Char, '<' ∉ l → '@' ∉ l →
      ¬ ("http").data <:+: l →
      cleanTextL l = pyStripL (collapseF (l.length + 1) l) := by
    intro l a1 a2 a3
    unfold cleanTextL reSub collapseWs
    rw [scanSubF_tag_id _ _ _ a1, scanSubF_url_id _ _ _ a3,
      scanSubF_email_id _ _ _ a2]
  have hCmem := collapseF_mem (s.data.length + 1) s.data (by omega)
  have hCchain := collapseF_chain (s.data.length + 1) s.data (by omega)
  have hfirst : cleanTextL s.data =
      pyStripL (collapseF (s.data.length + 1) s.data) := hsub s.data h1 h2 h3
  have hTsubC : pyStripL (collapseF (s.data.length + 1) s.data) ⊆
      collapseF (s.data.length + 1) s.data := pyStripL_subset _
  have hT1 : '<' ∉ pyStripL (collapseF (s.data.length + 1) s.data) := by
    intro hin
    rcases hCmem '<' (hTsubC hin) with ⟨hm, _⟩ | hsp
    · exact h1 hm
    · exact absurd hsp (by decide)
  have hT2 : '@' ∉ pyStripL (collapseF (s.data.length + 1) s.data) := by
    intro hin
    rcases hCmem '@' (hTsubC hin) with ⟨hm, _⟩ | hsp
    · exact h2 hm
    · exact absurd hsp (by decide)
  have hT3 : ¬ ("http").data <:+:
      pyStripL (collapseF (s.data.length + 1) s.data) := by
    intro hin
    have hC : ("http").data <:+: collapseF (s.data.length + 1) s.data :=
      hin.trans (pyStripL_infix_of_self _)
    exact h3 (collapseF_infix_transfer (s.data.length + 1) s.data ("http").data
      (by omega) (by decide) hC)
  have hTspace : ∀ c ∈ pyStripL (collapseF (s.data.length + 1) s.data),
      isPySpace c = true → c = ' ' := by
    intro c hc hspace
    rcases hCmem c (hTsubC hc) with ⟨_, hns⟩ | hsp
    · rw [hspace] at hns
      simp at hns
    · exact hsp
  have hTchain : List.Chain' noTwoSpaces
      (pyStripL (collapseF (s.data.length + 1) s.data)) :=
    pyStripL_chain _ hCchain
  have hsecond : cleanTextL (pyStripL (collapseF (s.data.length + 1) s.data)) =
      pyStripL (collapseF (s.data.length + 1) s.data) := by
    rw [hsub _ hT1 hT2 hT3]
    rw [collapseF_id _ _ (by omega) hTspace hTchain]
    exact pyStripL_idem _
  unfold clean_text
  congr 1
  show cleanTextL (cleanTextL s.data) = cleanTextL s.data
  rw [hfirst]
  exact hsecond

/-- Witness for the amended C9 at a concrete input free of tags, at signs
and http substrings. -/
theorem clean_text_idempotent_on_plain_witness :
    '<' ∉ ("  hello   world  ").data ∧
    '@' ∉ ("  hello   world  ").data ∧
    ¬ ("http").data <:+: ("  hello   world  ").data ∧
    clean_text (clean_text ("  hello   world  ")) =
      clean_text ("  hello   world  ") :=
  ⟨by decide, by decide, by decide,
    clean_text_idempotent_on_plain ("  hello   world  ")
      (by decide) (by decide) (by decide)⟩
